import Mathlib

/-!
# cordic_bcd: fixed-point BCD arithmetic and CORDIC rotations

A shallow embedding of `mpbcd.h`, `mpbcd.c` and `cordic_mp.c`.

* A `mp_num` is the C struct holding `int8_t digits[mp_digits]`; the cells are
  kept as a list of integers, most significant first, and every store into a
  cell goes through `int8`, the conversion to `int8_t`.
* Loops over the cell index are written as recursions over the list of cells.
* The text handed to `mp_load` is a list of characters; the terminating NUL is
  the end of the list (a NUL inside the list also ends the scan).
* `mp_shr` reads its local `spilover` after the shift loop; when `bits` is not
  positive the loop body never runs and the local was never assigned.  The
  value it then holds is the first argument of `mp_shr` in this embedding.
-/

namespace CordicBcd

/-- The constant `mp_digits` of `mpbcd.h`. -/
def mp_digits : Nat := 24

/-- The constant `stages` of `cordic_mp.c`. -/
def stages : Nat := 75

/-- Conversion of a C `int` to `int8_t` (two's complement wrap-around). -/
def int8 (x : Int) : Int := (x + 128) % 256 - 128

/-- The struct `mp_num`: the cells `digits[0 .. mp_digits-1]`. -/
structure mp_num where
  digits : List Int
deriving DecidableEq, Repr

/-- The struct `coord_t`. -/
structure coord_t where
  real : mp_num
  imag : mp_num
deriving DecidableEq, Repr

/-- The body of the loop of `mp_add` at one cell: the cell stored and the new `over`. -/
def add_cell (x y over : Int) : Int × Int :=
  let result := int8 (x + y + over)
  if result > 9 then (int8 (result - 10), 1) else (result, 0)

/-- The loop of `mp_add`, `i = mp_digits-1` down to `0`: the cell at the head
of the lists is handled last, with the `over` left by the cells behind it.
Returns the cells of `temp` and the final `over`. -/
def add_loop : List Int → List Int → List Int × Int
  | x :: xs, y :: ys =>
    let r := add_loop xs ys
    let c := add_cell x y r.2
    (c.1 :: r.1, c.2)
  | _, _ => ([], 0)

/-- The function `mp_add`. -/
def mp_add (op1 op2 : mp_num) : mp_num :=
  ⟨(add_loop op1.digits op2.digits).1⟩

/-- The local `one` of `mp_neg` and `mp_shr`: all cells 0, last cell 1. -/
def one : mp_num := ⟨List.replicate (mp_digits - 1) 0 ++ [1]⟩

/-- The function `mp_neg`. -/
def mp_neg (op : mp_num) : mp_num :=
  mp_add ⟨op.digits.map (fun d => int8 (9 - d))⟩ one

/-- The function `mp_isneg`. -/
def mp_isneg (val : mp_num) : Int :=
  if val.digits.getD 0 0 = 9 then 1 else 0

/-- The function `mp_sub`. -/
def mp_sub (op1 op2 : mp_num) : mp_num :=
  mp_add op1 (mp_neg op2)

/-- The inner loop of `mp_shr`, `i = 1 .. mp_digits-1`, over the cells behind
the sign cell, entered with the current `spilover`.  Returns the new cells and
the `spilover` left by the last cell.  The shift `temp.digits[i] >> 1` of the
promoted cell is the division by 2 rounding down, and `temp.digits[i] & 1` is
the remainder modulo 2. -/
def shr_cells : List Int → Int → List Int × Int
  | [], spilover => ([], spilover)
  | t :: ts, spilover =>
    let d := int8 (t / 2 + spilover)
    let r := shr_cells ts (if t % 2 ≠ 0 then 5 else 0)
    (d :: r.1, r.2)

/-- One pass of the outer loop of `mp_shr`: a shift by one bit. -/
def shr_bit (temp : List Int) : List Int × Int :=
  let r := shr_cells (temp.drop 1) (if temp.getD 0 0 = 9 then 5 else 0)
  (temp.take 1 ++ r.1, r.2)

/-- The outer loop of `mp_shr`, run `n` times on `(temp, spilover)`. -/
def shr_loop : Nat → List Int × Int → List Int × Int
  | 0, st => st
  | n + 1, st => shr_loop n (shr_bit st.1)

/-- The function `mp_shr`.  The argument `spilover0` is the content of the
local `spilover` before the loop. -/
def mp_shr (spilover0 : Int) (op : mp_num) (bits : Int) : mp_num :=
  let st := shr_loop bits.toNat (op.digits, spilover0)
  if st.2 ≠ 0 then
    if st.1.getD 0 0 = 0 then mp_add ⟨st.1⟩ one else mp_sub ⟨st.1⟩ one
  else ⟨st.1⟩

/-- The character `printf("%c", '0' + d)` writes. -/
def digit_char (d : Int) : Char := Char.ofNat ((48 + d) % 256).toNat

/-- The loop of `mp_print`, from the cell index `i` on (the cells left are the
first argument): a `.` before the cell of index 2, then the cell. -/
def print_loop : List Int → Nat → List Char
  | [], _ => []
  | d :: ds, i =>
    (if i = 2 then ['.'] else []) ++ digit_char d :: print_loop ds (i + 1)

/-- The function `mp_print`: the characters written. -/
def mp_print (val : mp_num) : List Char :=
  if val.digits.getD 0 0 = 9 then
    '-' :: print_loop ((mp_neg val).digits.drop 1) 1
  else
    print_loop (val.digits.drop 1) 1

/-- The scan loop of `mp_load` from the position `idx` on (the characters left
are the first argument), with the cell index `i` and the cells so far. -/
def load_loop : List Char → Nat → List Int → List Int
  | [], _, ds => ds
  | c :: cs, i, ds =>
    if i < mp_digits then
      if c.toNat = 0 then ds
      else if c.toNat < 48 ∨ c.toNat > 57 then load_loop cs i ds
      else load_loop cs (i + 1) (ds.set i (int8 ((c.toNat : Int) - 48)))
    else ds

/-- The function `mp_load`: the value returned and the value stored in `result`. -/
def mp_load (val : List Char) : Int × mp_num :=
  let neg := val.head? = some '-'
  let r : mp_num := ⟨load_loop val 1 (List.replicate mp_digits 0)⟩
  (0, if neg then mp_neg r else r)

/-- The literal constants `init_table` loads into entries 0 .. 23. -/
def table_literals : List String :=
  [ "0.78539816339744830961566084581987572104929234984377",
    "0.46364760900080611621425623146121440202853705428612",
    "0.24497866312686415417208248121127581091414409838118",
    "0.12435499454676143503135484916387102557317019176980",
    "0.06241880999595734847397911298550511360627388779749",
    "0.03123983343026827625371174489249097703249566372540",
    "0.01562372862047683080280152125657031891111413980090",
    "0.00781234106010111129646339184219928162122281172501",
    "0.00390623013196697182762866531142438714035749011520",
    "0.00195312251647881868512148262507671393161074677723",
    "0.00097656218955931943040343019971729085163419701581",
    "0.00048828121119489827546923962564484866619236113313",
    "0.00024414062014936176401672294325965998621241779097",
    "0.00012207031189367020423905864611795630093082940901",
    "0.00006103515617420877502166256917382915378514353683",
    "0.00003051757811552609686182595343853601975094967511",
    "0.00001525878906131576210723193581269788513742923814",
    "0.00000762939453110197026338848234010509058635074391",
    "0.00000381469726560649628292307561637299372280525730",
    "0.00000190734863281018703536536930591724416871434216",
    "0.00000095367431640596087942067068992311239001963412",
    "0.00000047683715820308885992758382144924707587049404",
    "0.00000023841857910155798249094797721893269783096898",
    "0.00000011920928955078068531136849713792211264596758" ]

/-- The loop of `init_table`, `i = 24 .. stages-1`, run `n` more times: each
pass appends `mp_shr` by one bit of the entry before. -/
def halve_loop : Nat → List mp_num → List mp_num
  | 0, tbl => tbl
  | n + 1, tbl =>
    halve_loop n (tbl ++ [mp_shr 0 (tbl.getLastD ⟨[]⟩) 1])

/-- The function `init_table`: the content of `angle_tbl` after the call. -/
def init_table : List mp_num :=
  halve_loop (stages - 24) (table_literals.map (fun s => (mp_load s.toList).2))

/-- The function `cordic_rot` on the table `angle_tbl`.  The arguments
`junk.1` and `junk.2` are what the local `spilover` of the first and of the
second call of `mp_shr` holds on entry.  The result is `none` when `stage` is
not an index of the table. -/
def cordic_rot (angle_tbl : List mp_num) (junk : Int × Int) (coord_in : coord_t)
    (angle_in : mp_num) (stage : Nat) : Option (coord_t × mp_num) :=
  match angle_tbl[stage]? with
  | none => none
  | some delta_angle =>
    let angle := angle_in
    let s_imag := mp_shr junk.1 coord_in.imag stage
    let s_real := mp_shr junk.2 coord_in.real stage
    if mp_isneg angle = 0 then
      some (⟨mp_sub coord_in.real s_imag, mp_add coord_in.imag s_real⟩,
            mp_sub angle delta_angle)
    else
      some (⟨mp_add coord_in.real s_imag, mp_sub coord_in.imag s_real⟩,
            mp_add angle delta_angle)

/-- The loop of `main`, stages `0 .. n-1` in increasing order, threading the
vector and the angle. -/
def main_loop (angle_tbl : List mp_num) (junk : Nat → Int × Int) :
    Nat → coord_t × mp_num → Option (coord_t × mp_num)
  | 0, st => some st
  | n + 1, st =>
    match main_loop angle_tbl junk n st with
    | none => none
    | some s => cordic_rot angle_tbl (junk n) s.1 s.2 n

/-- The state `main` starts its loop from. -/
def main_init : coord_t × mp_num :=
  (⟨(mp_load "0.60725293500888125616944675250492826311239085215007".toList).2,
    (mp_load "0.0".toList).2⟩,
   (mp_load "0.52359877559829887307710723054658381403286156656251".toList).2)

/-- The run of `main`: the table is built, the angle and the vector are
loaded, and all stages are applied. -/
def main_run (junk : Nat → Int × Int) : Option (coord_t × mp_num) :=
  main_loop init_table junk stages main_init

/-! ## Reading values -/

/-- The cells of a list all lie in `[0, 9]`. -/
def Digits (l : List Int) : Prop := ∀ d ∈ l, 0 ≤ d ∧ d ≤ 9

instance (l : List Int) : Decidable (Digits l) :=
  inferInstanceAs (Decidable (∀ d ∈ l, 0 ≤ d ∧ d ≤ 9))

/-- A value whose `mp_digits` cells all lie in `[0, 9]`. -/
def cells_ok (v : mp_num) : Prop := v.digits.length = mp_digits ∧ Digits v.digits

instance (v : mp_num) : Decidable (cells_ok v) :=
  inferInstanceAs (Decidable (v.digits.length = mp_digits ∧ Digits v.digits))

/-- The sign cell `digits[0]`. -/
def sign_cell (v : mp_num) : Int := v.digits.getD 0 0

/-- A valid value: cells in `[0, 9]` and the sign cell 0 or 9. -/
def valid (v : mp_num) : Prop := cells_ok v ∧ (sign_cell v = 0 ∨ sign_cell v = 9)

instance (v : mp_num) : Decidable (valid v) :=
  inferInstanceAs (Decidable (cells_ok v ∧ (sign_cell v = 0 ∨ sign_cell v = 9)))

/-- The digit encoding of a list of cells, most significant first. -/
def encL : List Int → Int
  | [] => 0
  | d :: ds => d * 10 ^ ds.length + encL ds

/-- The digit encoding: the sum over `i` of `digits[i] * 10^(23-i)`. -/
def enc (v : mp_num) : Int :=
  ((List.range mp_digits).map (fun i => v.digits.getD i 0 * 10 ^ (23 - i))).sum

/-- The signed value in units of the last place: `enc v` when the sign cell is
not 9, `enc v - 10^24` when it is. -/
def val (v : mp_num) : Int :=
  if sign_cell v = 9 then enc v - 10 ^ 24 else enc v

/-- The signed value of a list of cells whose head is the sign cell. -/
def svalL (l : List Int) : Int :=
  if l.getD 0 0 = 9 then encL l - 10 ^ l.length else encL l

/-- The characters of a NUL-terminated text: those before the first NUL. -/
def c_chars (text : List Char) : List Char :=
  text.takeWhile (fun c => decide (c.toNat ≠ 0))

/-- The characters of the text that lie in `'0'..'9'`, in order, cut to the
first 23. -/
def load_ds (text : List Char) : List Char :=
  ((c_chars text).filter (fun c => decide (48 ≤ c.toNat ∧ c.toNat ≤ 57))).take 23

/-- The value the lenient-load rule describes: sign cell 0, then the digits
`load_ds text`, then zeros. -/
def load_value (text : List Char) : mp_num :=
  ⟨0 :: ((load_ds text).map (fun c => (c.toNat : Int) - 48)
    ++ List.replicate (23 - (load_ds text).length) 0)⟩

/-- What `mp_shr` tests of the content of `spilover`: whether it is 0. -/
def junk_bit (j : Int) : Int := if j = 0 then 0 else 1

/-- Contents of the unassigned locals that matter in a run of `main`: those at
stage 0, where `mp_shr` is called with `bits = 0`. -/
def junk_at0 (j1 j2 : Int) : Nat → Int × Int :=
  fun k => if k = 0 then (j1, j2) else (0, 0)

/-- The encoding of `mp_shr v s` for a non-negative `v` with encoding `x`: at
`s = 0` the value, plus one unit when the junk is not 0; else the quotient by
`2^s` rounded half-up. -/
def sim_shr (j : Int) (x : Int) (s : Nat) : Int :=
  if s = 0 then x + junk_bit j else (x + 2 ^ (s - 1)) / 2 ^ s

/-- The encodings after `cordic_rot` at stage `s`, from the encodings
`(x, y, z)` of a non-negative vector and of the angle and the encoding `d` of
the table entry. -/
def sim_rot (j : Int × Int) (d : Int) (st : Int × Int × Int) (s : Nat) : Int × Int × Int :=
  if st.2.2 < 9 * 10 ^ 23 then
    ((st.1 - sim_shr j.1 st.2.1 s) % 10 ^ 24, (st.2.1 + sim_shr j.2 st.1 s) % 10 ^ 24,
      (st.2.2 - d) % 10 ^ 24)
  else
    ((st.1 + sim_shr j.1 st.2.1 s) % 10 ^ 24, (st.2.1 - sim_shr j.2 st.1 s) % 10 ^ 24,
      (st.2.2 + d) % 10 ^ 24)

/-- The encodings of a state of the loop of `main`. -/
def enc_state (st : coord_t × mp_num) : Int × Int × Int :=
  (enc st.1.real, enc st.1.imag, enc st.2)

/-- The encodings of the 75 entries of `angle_tbl` after `init_table`. -/
def table_enc : List Int :=
  [ 7853981633974483096156, 4636476090008061162142, 2449786631268641541720, 1243549945467614350313,
    624188099959573484739, 312398334302682762537, 156237286204768308028, 78123410601011112964,
    39062301319669718276, 19531225164788186851, 9765621895593194304, 4882812111948982754,
    2441406201493617640, 1220703118936702042, 610351561742087750, 305175781155260968,
    152587890613157621, 76293945311019702, 38146972656064962, 19073486328101870,
    9536743164059608, 4768371582030888, 2384185791015579, 1192092895507806,
    596046447753903, 298023223876952, 149011611938476, 74505805969238,
    37252902984619, 18626451492310, 9313225746155, 4656612873078,
    2328306436539, 1164153218270, 582076609135, 291038304568,
    145519152284, 72759576142, 36379788071, 18189894036,
    9094947018, 4547473509, 2273736755, 1136868378,
    568434189, 284217095, 142108548, 71054274,
    35527137, 17763569, 8881785, 4440893,
    2220447, 1110224, 555112, 277556,
    138778, 69389, 34695, 17348,
    8674, 4337, 2169, 1085,
    543, 272, 136, 68,
    34, 17, 9, 5,
    3, 2, 1 ]

/-- The encodings after the first `n` stages of the loop of `main`. -/
def sim_loop (tblE : List Int) (junk : Nat → Int × Int) :
    Nat → Int × Int × Int → Int × Int × Int
  | 0, st => st
  | n + 1, st => sim_rot (junk n) (tblE.getD n 0) (sim_loop tblE junk n st) n

/-- The value whose cells are the 24 decimal digits of `n`. -/
def of_enc (n : Int) : mp_num :=
  ⟨(List.range mp_digits).map (fun i => (n / 10 ^ (23 - i)) % 10)⟩

/-- The most negative value: sign cell 9, every other cell 0. -/
def mp_min : mp_num := ⟨9 :: List.replicate (mp_digits - 1) 0⟩

/-- The cells the first 23 digits of a literal `d.ddd...` give: the integer
digit (the first character) and the first 22 fractional digits (the characters
from the third on). -/
def literal_cells (s : String) : List Int :=
  (s.toList.take 1 ++ (s.toList.drop 2).take 22).map (fun c => (c.toNat : Int) - 48)

/-- The signed value, in units of `10^-22`, lies in `[-1, 2)`. -/
def in_range (x : Int) : Prop := -10 ^ 22 ≤ x ∧ x < 2 * 10 ^ 22

instance (x : Int) : Decidable (in_range x) :=
  inferInstanceAs (Decidable (-10 ^ 22 ≤ x ∧ x < 2 * 10 ^ 22))

/-- The encodings of a state whose vector lies in `[0, 2)` and whose angle lies
in `[-1, 2)`. -/
def sim_in_range (s : Int × Int × Int) : Prop :=
  s.1 < 2 * 10 ^ 22 ∧ s.2.1 < 2 * 10 ^ 22 ∧
    (s.2.2 < 2 * 10 ^ 22 ∨ 10 ^ 24 - 10 ^ 22 ≤ s.2.2)

instance (s : Int × Int × Int) : Decidable (sim_in_range s) :=
  inferInstanceAs (Decidable (s.1 < 2 * 10 ^ 22 ∧ s.2.1 < 2 * 10 ^ 22 ∧
    (s.2.2 < 2 * 10 ^ 22 ∨ 10 ^ 24 - 10 ^ 22 ≤ s.2.2)))

/-- The zero value: all cells 0. -/
def mp_zero : mp_num := ⟨List.replicate mp_digits 0⟩

end CordicBcd

set_option maxRecDepth 100000

namespace CordicBcd

/-! ## Cells and encodings -/

theorem int8_of_range (x : Int) (h1 : -128 ≤ x) (h2 : x ≤ 127) : int8 x = x := by
  unfold int8; omega

theorem Digits_nil : Digits [] := by
  intro d hd; simp at hd

theorem Digits_cons {d : Int} {l : List Int} :
    Digits (d :: l) ↔ (0 ≤ d ∧ d ≤ 9) ∧ Digits l := by
  unfold Digits; simp

theorem encL_nonneg : ∀ l : List Int, Digits l → 0 ≤ encL l
  | [], _ => by simp [encL]
  | d :: ds, h => by
    have hd := Digits_cons.mp h
    have ih := encL_nonneg ds hd.2
    have hp : (0 : Int) ≤ 10 ^ ds.length := by positivity
    have := mul_nonneg hd.1.1 hp
    simp only [encL]; omega

theorem encL_lt : ∀ l : List Int, Digits l → encL l < 10 ^ l.length
  | [], _ => by simp [encL]
  | d :: ds, h => by
    have hd := Digits_cons.mp h
    have ih := encL_lt ds hd.2
    have hp : (0 : Int) ≤ 10 ^ ds.length := by positivity
    have h9 : d * 10 ^ ds.length ≤ 9 * 10 ^ ds.length :=
      mul_le_mul_of_nonneg_right hd.1.2 hp
    simp only [encL, List.length_cons, pow_succ]; omega

/-- Two lists of decimal cells of one length with the same encoding are equal. -/
theorem encL_inj : ∀ xs ys : List Int, xs.length = ys.length → Digits xs → Digits ys →
    encL xs = encL ys → xs = ys
  | [], [], _, _, _, _ => rfl
  | [], _ :: _, h, _, _, _ => by simp at h
  | _ :: _, [], h, _, _, _ => by simp at h
  | x :: xs, y :: ys, hl, hx, hy, he => by
    have hl' : xs.length = ys.length := by simpa using hl
    have hx' := Digits_cons.mp hx
    have hy' := Digits_cons.mp hy
    have bx0 := encL_nonneg xs hx'.2
    have by0 := encL_nonneg ys hy'.2
    have bx1 := encL_lt xs hx'.2
    have by1 := encL_lt ys hy'.2
    simp only [encL, hl'] at he
    rw [hl'] at bx1
    have hp : (0 : Int) < 10 ^ ys.length := by positivity
    have hxy : x = y := by
      rcases lt_trichotomy x y with h | h | h
      · have h1 : (x + 1) * 10 ^ ys.length ≤ y * 10 ^ ys.length :=
          mul_le_mul_of_nonneg_right (by omega) hp.le
        rw [add_mul] at h1; omega
      · exact h
      · have h1 : (y + 1) * 10 ^ ys.length ≤ x * 10 ^ ys.length :=
          mul_le_mul_of_nonneg_right (by omega) hp.le
        rw [add_mul] at h1; omega
    subst hxy
    have : encL xs = encL ys := by omega
    rw [encL_inj xs ys hl' hx'.2 hy'.2 this]

theorem encL_eq_sum : ∀ l : List Int,
    ((List.range l.length).map (fun i => l.getD i 0 * 10 ^ (l.length - 1 - i))).sum = encL l
  | [] => by simp [encL]
  | x :: xs => by
    have ih := encL_eq_sum xs
    rw [List.length_cons, List.range_succ_eq_map, List.map_cons, List.sum_cons, List.map_map]
    simp only [encL]
    have hfun : ((fun i => (x :: xs).getD i 0 * 10 ^ (xs.length + 1 - 1 - i)) ∘ Nat.succ)
        = (fun i => xs.getD i 0 * 10 ^ (xs.length - 1 - i)) := by
      funext i
      simp only [Function.comp, List.getD_cons_succ]
      congr 2
      omega
    rw [hfun, ih]
    simp

theorem enc_eq_encL (v : mp_num) (h : v.digits.length = mp_digits) :
    enc v = encL v.digits := by
  have := encL_eq_sum v.digits
  rw [h] at this
  exact this

/-! ## Addition -/

theorem add_cell_spec (x y over : Int) (hx : 0 ≤ x ∧ x ≤ 9) (hy : 0 ≤ y ∧ y ≤ 9)
    (ho : over = 0 ∨ over = 1) :
    (0 ≤ (add_cell x y over).1 ∧ (add_cell x y over).1 ≤ 9) ∧
    ((add_cell x y over).2 = 0 ∨ (add_cell x y over).2 = 1) ∧
    (add_cell x y over).1 + 10 * (add_cell x y over).2 = x + y + over := by
  have h8 : int8 (x + y + over) = x + y + over := int8_of_range _ (by omega) (by omega)
  have h9 : int8 (x + y + over - 10) = x + y + over - 10 :=
    int8_of_range _ (by omega) (by omega)
  simp only [add_cell, h8, h9]
  split
  · exact ⟨⟨by omega, by omega⟩, Or.inr rfl, by omega⟩
  · exact ⟨⟨by omega, by omega⟩, Or.inl rfl, by omega⟩

theorem add_loop_spec : ∀ xs ys : List Int, xs.length = ys.length → Digits xs → Digits ys →
    (add_loop xs ys).1.length = xs.length ∧ Digits (add_loop xs ys).1 ∧
    ((add_loop xs ys).2 = 0 ∨ (add_loop xs ys).2 = 1) ∧
    encL (add_loop xs ys).1 + (add_loop xs ys).2 * 10 ^ xs.length = encL xs + encL ys
  | [], [], _, _, _ => by simp [add_loop, encL, Digits_nil]
  | [], _ :: _, h, _, _ => by simp at h
  | _ :: _, [], h, _, _ => by simp at h
  | x :: xs, y :: ys, hl, hx, hy => by
    have hl' : xs.length = ys.length := by simpa using hl
    have hx' := Digits_cons.mp hx
    have hy' := Digits_cons.mp hy
    obtain ⟨ih1, ih2, ih3, ih4⟩ := add_loop_spec xs ys hl' hx'.2 hy'.2
    obtain ⟨c1, c2, c3⟩ := add_cell_spec x y (add_loop xs ys).2 hx'.1 hy'.1 ih3
    simp only [add_loop, List.length_cons, encL, ih1]
    refine ⟨trivial, Digits_cons.mpr ⟨c1, ih2⟩, c2, ?_⟩
    rw [← hl']
    have e : (add_cell x y (add_loop xs ys).2).1
        = x + y + (add_loop xs ys).2 - 10 * (add_cell x y (add_loop xs ys).2).2 := by omega
    rw [e, pow_succ]
    linear_combination ih4

theorem mp_add_spec (a b : mp_num) (ha : cells_ok a) (hb : cells_ok b) :
    cells_ok (mp_add a b) ∧
    ((add_loop a.digits b.digits).2 = 0 ∨ (add_loop a.digits b.digits).2 = 1) ∧
    enc (mp_add a b) + (add_loop a.digits b.digits).2 * 10 ^ 24 = enc a + enc b := by
  obtain ⟨h1, h2, h3, h4⟩ := add_loop_spec a.digits b.digits (ha.1.trans hb.1.symm) ha.2 hb.2
  have hlen : (mp_add a b).digits.length = mp_digits := by
    simp only [mp_add]; rw [h1, ha.1]
  refine ⟨⟨hlen, h2⟩, h3, ?_⟩
  rw [enc_eq_encL _ hlen, enc_eq_encL _ ha.1, enc_eq_encL _ hb.1]
  rw [ha.1] at h4
  exact h4

theorem enc_bounds (v : mp_num) (h : cells_ok v) : 0 ≤ enc v ∧ enc v < 10 ^ 24 := by
  rw [enc_eq_encL _ h.1]
  have := encL_lt v.digits h.2
  rw [h.1] at this
  exact ⟨encL_nonneg _ h.2, this⟩

/-- Values with cells in `[0, 9]` and one encoding are the same value. -/
theorem enc_inj (a b : mp_num) (ha : cells_ok a) (hb : cells_ok b) (h : enc a = enc b) :
    a = b := by
  rw [enc_eq_encL _ ha.1, enc_eq_encL _ hb.1] at h
  have := encL_inj a.digits b.digits (ha.1.trans hb.1.symm) ha.2 hb.2 h
  cases a; cases b; simp_all

theorem mp_add_enc_mod (a b : mp_num) (ha : cells_ok a) (hb : cells_ok b) :
    enc (mp_add a b) = (enc a + enc b) % 10 ^ 24 := by
  obtain ⟨h1, h2, h3⟩ := mp_add_spec a b ha hb
  have hb1 := enc_bounds _ h1
  omega

/-- C2: `mp_add` is addition modulo `10^24` on the digit encoding: for values
whose 24 cells lie in `[0, 9]` the encoding of the sum is the sum of the
encodings modulo `10^24`; the only thing lost is the carry out of the sign
cell (the final `over`, 0 or 1, times `10^24`), and the cells of the result
lie in `[0, 9]` again. -/
theorem mp_add_is_addition_mod (a b : mp_num) (ha : cells_ok a) (hb : cells_ok b) :
    enc (mp_add a b) = (enc a + enc b) % 10 ^ 24 ∧
    (∃ over : Int, (over = 0 ∨ over = 1) ∧
      enc a + enc b = enc (mp_add a b) + over * 10 ^ 24) ∧
    cells_ok (mp_add a b) := by
  obtain ⟨h1, h2, h3⟩ := mp_add_spec a b ha hb
  exact ⟨mp_add_enc_mod a b ha hb, ⟨_, h2, h3.symm⟩, h1⟩

theorem mp_add_is_addition_mod_witness :
    cells_ok ⟨List.replicate 24 9⟩ ∧ cells_ok one ∧
    enc (mp_add ⟨List.replicate 24 9⟩ one)
      = (enc ⟨List.replicate 24 9⟩ + enc one) % 10 ^ 24 :=
  ⟨by decide, by decide,
    (mp_add_is_addition_mod ⟨List.replicate 24 9⟩ one (by decide) (by decide)).1⟩

/-! ## Negation and subtraction -/

theorem complement_spec : ∀ l : List Int, Digits l →
    Digits (l.map (fun d => int8 (9 - d))) ∧
    encL (l.map (fun d => int8 (9 - d))) = 10 ^ l.length - 1 - encL l
  | [], _ => by simp [encL, Digits_nil]
  | d :: ds, h => by
    have hd := Digits_cons.mp h
    obtain ⟨ih1, ih2⟩ := complement_spec ds hd.2
    have h8 : int8 (9 - d) = 9 - d := int8_of_range _ (by omega) (by omega)
    simp only [List.map_cons, encL, List.length_map, List.length_cons, h8, ih2]
    refine ⟨Digits_cons.mpr ⟨⟨by omega, by omega⟩, ih1⟩, ?_⟩
    rw [pow_succ]; ring

theorem one_ok : cells_ok one := by decide

theorem enc_one : enc one = 1 := by decide

theorem zero_ok : cells_ok mp_zero := by decide

theorem enc_zero : enc mp_zero = 0 := by decide

theorem mp_neg_spec (v : mp_num) (h : cells_ok v) :
    cells_ok (mp_neg v) ∧ enc (mp_neg v) = (- enc v) % 10 ^ 24 := by
  obtain ⟨c1, c2⟩ := complement_spec v.digits h.2
  have hc : cells_ok ⟨v.digits.map (fun d => int8 (9 - d))⟩ :=
    ⟨by simp only [List.length_map]; exact h.1, c1⟩
  have hce : enc ⟨v.digits.map (fun d => int8 (9 - d))⟩ = 10 ^ 24 - 1 - enc v := by
    rw [enc_eq_encL _ hc.1, enc_eq_encL _ h.1, c2, h.1]; rfl
  obtain ⟨a1, _, _⟩ := mp_add_spec _ one hc one_ok
  have a2 := mp_add_enc_mod _ one hc one_ok
  have hb := enc_bounds v h
  refine ⟨a1, ?_⟩
  show enc (mp_add _ one) = _
  rw [a2, hce, enc_one]
  omega

theorem mp_sub_spec (a b : mp_num) (ha : cells_ok a) (hb : cells_ok b) :
    cells_ok (mp_sub a b) ∧ enc (mp_sub a b) = (enc a - enc b) % 10 ^ 24 := by
  obtain ⟨n1, n2⟩ := mp_neg_spec b hb
  obtain ⟨a1, _, _⟩ := mp_add_spec a (mp_neg b) ha n1
  have a2 := mp_add_enc_mod a (mp_neg b) ha n1
  refine ⟨a1, ?_⟩
  show enc (mp_add a (mp_neg b)) = _
  rw [a2, n2]
  omega

/-- The sign cell is the leading decimal digit of the encoding. -/
theorem sign_cell_enc (v : mp_num) (h : cells_ok v) :
    sign_cell v * 10 ^ 23 ≤ enc v ∧ enc v < (sign_cell v + 1) * 10 ^ 23 := by
  obtain ⟨l⟩ := v
  obtain ⟨hl, hd⟩ := h
  rw [enc_eq_encL _ hl]
  cases l with
  | nil => simp [mp_digits] at hl
  | cons s rest =>
    have hr : rest.length = 23 := by simpa [mp_digits] using hl
    have hd' := Digits_cons.mp hd
    have b0 := encL_nonneg rest hd'.2
    have b1 := encL_lt rest hd'.2
    simp only [sign_cell, List.getD_cons_zero, encL, hr] at *
    constructor <;> linarith

/-- C5: negation is an involution: for every valid value (24 cells in
`[0, 9]`, sign cell 0 or 9), negating twice gives the value back, cell for
cell. -/
theorem mp_neg_involution (v : mp_num) (hv : valid v) : mp_neg (mp_neg v) = v := by
  obtain ⟨n1, n2⟩ := mp_neg_spec v hv.1
  obtain ⟨m1, m2⟩ := mp_neg_spec _ n1
  have hb := enc_bounds v hv.1
  apply enc_inj _ _ m1 hv.1
  rw [m2, n2]
  omega

theorem mp_neg_involution_witness :
    valid main_init.2 ∧ mp_neg (mp_neg main_init.2) = main_init.2 :=
  ⟨by decide, mp_neg_involution main_init.2 (by decide)⟩

/-- C6: additive inverse: for every valid value `v`, `mp_add v (mp_neg v)` is
the zero value, all 24 cells (the sign cell included) being 0. -/
theorem mp_add_neg_self (v : mp_num) (hv : valid v) :
    mp_add v (mp_neg v) = mp_zero ∧ mp_zero.digits = List.replicate 24 0 := by
  obtain ⟨n1, n2⟩ := mp_neg_spec v hv.1
  obtain ⟨a1, _, _⟩ := mp_add_spec v (mp_neg v) hv.1 n1
  have a2 := mp_add_enc_mod v (mp_neg v) hv.1 n1
  have hb := enc_bounds v hv.1
  refine ⟨?_, rfl⟩
  apply enc_inj _ _ a1 zero_ok
  rw [a2, n2, enc_zero]
  omega

theorem mp_add_neg_self_witness :
    valid main_init.1.real ∧ mp_add main_init.1.real (mp_neg main_init.1.real) = mp_zero :=
  ⟨by decide, (mp_add_neg_self main_init.1.real (by decide)).1⟩

/-- C7: sign consistency: for every valid value `v` other than the zero value,
`mp_isneg (mp_neg v)` differs from `mp_isneg v`; and `mp_isneg v` is 1 exactly
when the sign cell is 9 (it is 0 otherwise). -/
theorem mp_isneg_neg (v : mp_num) (hv : valid v) (hnz : v ≠ mp_zero) :
    mp_isneg (mp_neg v) ≠ mp_isneg v ∧
    (mp_isneg v = 1 ↔ sign_cell v = 9) ∧ (mp_isneg v = 0 ↔ sign_cell v ≠ 9) := by
  obtain ⟨n1, n2⟩ := mp_neg_spec v hv.1
  have hb := enc_bounds v hv.1
  have s1 := sign_cell_enc v hv.1
  have s2 := sign_cell_enc _ n1
  have hne : enc v ≠ 0 := by
    intro h0
    exact hnz (enc_inj v mp_zero hv.1 zero_ok (by rw [h0, enc_zero]))
  have e1 : mp_isneg v = if sign_cell v = 9 then 1 else 0 := rfl
  have e2 : mp_isneg (mp_neg v) = if sign_cell (mp_neg v) = 9 then 1 else 0 := rfl
  refine ⟨?_, ?_, ?_⟩
  · rw [e1, e2]
    rcases hv.2 with h | h
    · have h9 : sign_cell (mp_neg v) = 9 := by
        rw [h] at s1
        have : enc (mp_neg v) = 10 ^ 24 - enc v := by rw [n2]; omega
        have c := n1.2
        omega
      rw [h9, h]; decide
    · have h9 : sign_cell (mp_neg v) ≠ 9 := by
        rw [h] at s1
        intro h'
        rw [h'] at s2
        have : enc (mp_neg v) = 10 ^ 24 - enc v := by rw [n2]; omega
        omega
      rw [if_neg h9, if_pos h]; decide
  · rw [e1]; split <;> simp_all
  · rw [e1]; split <;> simp_all

theorem mp_isneg_neg_witness :
    valid main_init.2 ∧ main_init.2 ≠ mp_zero ∧
    mp_isneg (mp_neg main_init.2) ≠ mp_isneg main_init.2 :=
  ⟨by decide, by decide, (mp_isneg_neg main_init.2 (by decide) (by decide)).1⟩

/-- C8: `mp_sub` is subtraction modulo `10^24`: for values with cells in
`[0, 9]`, `mp_sub a b` is `mp_add a (mp_neg b)`, its encoding is
`(enc a - enc b) mod 10^24`, adding `b` back gives `a`, and `mp_sub a a` is
the zero value. -/
theorem mp_sub_is_subtraction_mod (a b : mp_num) (ha : cells_ok a) (hb : cells_ok b) :
    mp_sub a b = mp_add a (mp_neg b) ∧
    enc (mp_sub a b) = (enc a - enc b) % 10 ^ 24 ∧
    mp_add (mp_sub a b) b = a ∧
    mp_sub a a = mp_zero := by
  obtain ⟨s1, s2⟩ := mp_sub_spec a b ha hb
  obtain ⟨t1, t2⟩ := mp_sub_spec a a ha ha
  obtain ⟨a1, _, _⟩ := mp_add_spec (mp_sub a b) b s1 hb
  have a2 := mp_add_enc_mod (mp_sub a b) b s1 hb
  have ba := enc_bounds a ha
  have bb := enc_bounds b hb
  refine ⟨rfl, s2, ?_, ?_⟩
  · apply enc_inj _ _ a1 ha
    rw [a2, s2]
    omega
  · apply enc_inj _ _ t1 zero_ok
    rw [t2, enc_zero]
    omega

theorem mp_sub_is_subtraction_mod_witness :
    cells_ok main_init.1.real ∧ cells_ok main_init.2 ∧
    mp_add (mp_sub main_init.1.real main_init.2) main_init.2 = main_init.1.real :=
  ⟨by decide, by decide,
    (mp_sub_is_subtraction_mod main_init.1.real main_init.2 (by decide) (by decide)).2.2.1⟩

/-! ## Shifting -/

/-- The inner loop of `mp_shr` halves the number made of the carry-in bit `c`
and the cells, and leaves the bit shifted out in `spilover`. -/
theorem shr_cells_spec : ∀ (ts : List Int) (c : Int), Digits ts → (c = 0 ∨ c = 1) →
    (shr_cells ts (5 * c)).1.length = ts.length ∧ Digits (shr_cells ts (5 * c)).1 ∧
    ∃ c' : Int, (c' = 0 ∨ c' = 1) ∧ (shr_cells ts (5 * c)).2 = 5 * c' ∧
      2 * encL (shr_cells ts (5 * c)).1 + c' = c * 10 ^ ts.length + encL ts
  | [], c, _, hc => by
    refine ⟨rfl, Digits_nil, c, hc, rfl, ?_⟩
    simp [shr_cells, encL]
  | t :: ts, c, h, hc => by
    have hd := Digits_cons.mp h
    have hsp : (if t % 2 ≠ 0 then (5 : Int) else 0) = 5 * (t % 2) := by
      split <;> omega
    have hc1 : t % 2 = 0 ∨ t % 2 = 1 := by omega
    obtain ⟨ih1, ih2, c', hc', ih3, ih4⟩ := shr_cells_spec ts (t % 2) hd.2 hc1
    have h8 : int8 (t / 2 + 5 * c) = t / 2 + 5 * c :=
      int8_of_range _ (by omega) (by omega)
    simp only [shr_cells, hsp, h8, List.length_cons, encL, ih1]
    refine ⟨trivial, Digits_cons.mpr ⟨⟨by omega, by omega⟩, ih2⟩, c', hc', ih3, ?_⟩
    have hq : t = 2 * (t / 2) + t % 2 := by omega
    rw [pow_succ]
    linear_combination ih4 - (10 : Int) ^ ts.length * hq

/-- One pass of the outer loop of `mp_shr` halves the signed value, rounding
down, keeps the sign cell, and leaves the bit shifted out in `spilover`. -/
theorem shr_bit_spec (s : Int) (ts : List Int) (h : Digits (s :: ts)) (hs : s = 0 ∨ s = 9) :
    (shr_bit (s :: ts)).1.length = (s :: ts).length ∧ Digits (shr_bit (s :: ts)).1 ∧
    (shr_bit (s :: ts)).1.getD 0 0 = s ∧
    ∃ c : Int, (c = 0 ∨ c = 1) ∧ (shr_bit (s :: ts)).2 = 5 * c ∧
      2 * svalL (shr_bit (s :: ts)).1 + c = svalL (s :: ts) := by
  have hd := Digits_cons.mp h
  obtain ⟨c0, hc0, hsp, hv⟩ : ∃ c0 : Int, (c0 = 0 ∨ c0 = 1) ∧
      (if s = 9 then (5 : Int) else 0) = 5 * c0 ∧ (if s = 9 then (1 : Int) else 0) = c0 := by
    rcases hs with rfl | rfl
    · exact ⟨0, Or.inl rfl, by decide, by decide⟩
    · exact ⟨1, Or.inr rfl, by decide, by decide⟩
  obtain ⟨l1, l2, c, hc, l3, l4⟩ := shr_cells_spec ts c0 hd.2 hc0
  have hshape : shr_bit (s :: ts)
      = (s :: (shr_cells ts (5 * c0)).1, (shr_cells ts (5 * c0)).2) := by
    simp [shr_bit, hsp]
  rw [hshape]
  refine ⟨by simp [l1], Digits_cons.mpr ⟨hd.1, l2⟩, rfl, c, hc, l3, ?_⟩
  simp only [svalL, List.getD_cons_zero, encL, List.length_cons, l1]
  rcases hs with rfl | rfl
  · have : c0 = 0 := by rw [← hv]; decide
    subst this
    simp only [show ¬ ((0 : Int) = 9) by decide, if_false]
    linear_combination l4
  · have : c0 = 1 := by rw [← hv]; decide
    subst this
    simp only [if_true]
    rw [pow_succ]
    linear_combination l4

/-- After `n + 1` passes of the outer loop of `mp_shr` the signed value has been
divided by `2^(n+1)` rounding down, and `spilover` holds the last bit shifted
out, whatever it held before the loop. -/
theorem shr_loop_spec (s : Int) (hs : s = 0 ∨ s = 9) :
    ∀ (n : Nat) (l : List Int) (sp : Int), l.length = mp_digits → Digits l →
      l.getD 0 0 = s →
    (shr_loop (n + 1) (l, sp)).1.length = mp_digits ∧ Digits (shr_loop (n + 1) (l, sp)).1 ∧
    (shr_loop (n + 1) (l, sp)).1.getD 0 0 = s ∧
    ∃ c rem : Int, (c = 0 ∨ c = 1) ∧ (shr_loop (n + 1) (l, sp)).2 = 5 * c ∧
      0 ≤ rem ∧ rem < 2 ^ n ∧
      svalL l = 2 ^ (n + 1) * svalL (shr_loop (n + 1) (l, sp)).1 + 2 ^ n * c + rem := by
  intro n
  induction n with
  | zero =>
    intro l sp hl hd h0
    cases l with
    | nil => simp [mp_digits] at hl
    | cons x ts =>
      have hx : x = s := by simpa using h0
      subst hx
      obtain ⟨b1, b2, b3, c, hc, b4, b5⟩ := shr_bit_spec x ts hd hs
      refine ⟨b1.trans hl, b2, b3, c, 0, hc, b4, le_refl _, by norm_num, ?_⟩
      show svalL (x :: ts) = 2 ^ (0 + 1) * svalL (shr_bit (x :: ts)).1 + 2 ^ 0 * c + 0
      rw [← b5]; ring
  | succ n ih =>
    intro l sp hl hd h0
    cases l with
    | nil => simp [mp_digits] at hl
    | cons x ts =>
      have hx : x = s := by simpa using h0
      subst hx
      obtain ⟨b1, b2, b3, c0, hc0, _, b5⟩ := shr_bit_spec x ts hd hs
      obtain ⟨i1, i2, i3, c, rem, hc, i4, r0, r1, i5⟩ :=
        ih (shr_bit (x :: ts)).1 (shr_bit (x :: ts)).2 (b1.trans hl) b2 b3
      have e : shr_loop (n + 1 + 1) (x :: ts, sp)
          = shr_loop (n + 1) ((shr_bit (x :: ts)).1, (shr_bit (x :: ts)).2) := rfl
      rw [e]
      refine ⟨i1, i2, i3, c, 2 * rem + c0, hc, i4, by omega, ?_, ?_⟩
      · rw [pow_succ]; omega
      · rw [← b5, i5]; ring

/-- Quotients of a number split as `2 * P * E + P * c + rem`. -/
theorem split_quotients (N P E c rem : Int) (hP : 0 < P) (hc : c = 0 ∨ c = 1)
    (h0 : 0 ≤ rem) (h1 : rem < P) (hN : N = 2 * P * E + P * c + rem) :
    N / (2 * P) = E ∧ (N + P) / (2 * P) = E + c ∧ (N / P) % 2 = c := by
  have h2P : 0 < 2 * P := by omega
  have q1 : N / (2 * P) = E ∧ N % (2 * P) = P * c + rem := by
    apply (Int.ediv_emod_unique h2P).mpr
    refine ⟨by rw [hN]; ring, ?_, ?_⟩ <;> rcases hc with rfl | rfl <;> omega
  have q2 : N / P = 2 * E + c ∧ N % P = rem := by
    apply (Int.ediv_emod_unique hP).mpr
    exact ⟨by rw [hN]; ring, h0, h1⟩
  have q3 : (N + P) / (2 * P) = E + c := by
    rcases hc with rfl | rfl
    · have : (N + P) / (2 * P) = E ∧ (N + P) % (2 * P) = P + rem := by
        apply (Int.ediv_emod_unique h2P).mpr
        exact ⟨by rw [hN]; ring, by omega, by omega⟩
      rw [this.1]; ring
    · have : (N + P) / (2 * P) = E + 1 ∧ (N + P) % (2 * P) = rem := by
        apply (Int.ediv_emod_unique h2P).mpr
        exact ⟨by rw [hN]; ring, by omega, by omega⟩
      exact this.1
  refine ⟨q1.1, q3, ?_⟩
  rw [q2.1]
  rcases hc with rfl | rfl <;> omega

theorem svalL_of_sign_zero (l : List Int) (h : l.getD 0 0 = 0) : svalL l = encL l := by
  unfold svalL
  rw [h, if_neg (by decide)]

/-- The value `mp_shr` returns for a non-negative value and a positive shift
count: the truncated quotient plus the last bit shifted out. -/
theorem mp_shr_nonneg_spec (junk : Int) (v : mp_num) (n : Nat)
    (hv : cells_ok v) (hs : sign_cell v = 0) :
    cells_ok (mp_shr junk v ((n + 1 : Nat) : Int)) ∧
    sign_cell (mp_shr junk v ((n + 1 : Nat) : Int)) = 0 ∧
    ∃ E c rem : Int, (c = 0 ∨ c = 1) ∧ 0 ≤ rem ∧ rem < 2 ^ n ∧ 0 ≤ E ∧
      enc v = 2 * 2 ^ n * E + 2 ^ n * c + rem ∧
      enc (mp_shr junk v ((n + 1 : Nat) : Int)) = E + c := by
  obtain ⟨s1, s2, s3, c, rem, hc, s4, r0, r1, s5⟩ :=
    shr_loop_spec 0 (Or.inl rfl) n v.digits junk hv.1 hv.2 hs
  have hst : cells_ok ⟨(shr_loop (n + 1) (v.digits, junk)).1⟩ := ⟨s1, s2⟩
  have hss : sign_cell ⟨(shr_loop (n + 1) (v.digits, junk)).1⟩ = 0 := s3
  rw [svalL_of_sign_zero _ hs, svalL_of_sign_zero _ s3, ← enc_eq_encL _ hv.1,
    ← enc_eq_encL ⟨(shr_loop (n + 1) (v.digits, junk)).1⟩ s1] at s5
  have bE := sign_cell_enc _ hst
  rw [hss] at bE
  have bN := sign_cell_enc v hv
  rw [hs] at bN
  have hP : (0 : Int) < 2 ^ n := by positivity
  have hunf : mp_shr junk v ((n + 1 : Nat) : Int)
      = if (shr_loop (n + 1) (v.digits, junk)).2 ≠ 0 then
          (if (shr_loop (n + 1) (v.digits, junk)).1.getD 0 0 = 0
            then mp_add ⟨(shr_loop (n + 1) (v.digits, junk)).1⟩ one
            else mp_sub ⟨(shr_loop (n + 1) (v.digits, junk)).1⟩ one)
        else ⟨(shr_loop (n + 1) (v.digits, junk)).1⟩ := by
    simp only [mp_shr, Int.toNat_ofNat]
  rw [hunf, s4, s3]
  rcases hc with rfl | rfl
  · simp only [mul_zero, ne_eq, not_true_eq_false, if_false]
    exact ⟨hst, hss, _, 0, rem, Or.inl rfl, r0, r1, bE.1, by rw [s5, pow_succ]; ring, by ring⟩
  · simp only [mul_one, ne_eq, show ¬ ((5 : Int) = 0) by decide, not_false_eq_true, if_true]
    obtain ⟨a1, _, _⟩ := mp_add_spec _ one hst one_ok
    have a2 := mp_add_enc_mod _ one hst one_ok
    rw [enc_one] at a2
    have hEle : 2 * enc ⟨(shr_loop (n + 1) (v.digits, junk)).1⟩ ≤ enc v := by
      have hm : 1 * enc ⟨(shr_loop (n + 1) (v.digits, junk)).1⟩
          ≤ 2 ^ n * enc ⟨(shr_loop (n + 1) (v.digits, junk)).1⟩ :=
        mul_le_mul_of_nonneg_right (by omega) bE.1
      rw [s5, pow_succ]
      nlinarith
    have hval : enc (mp_add ⟨(shr_loop (n + 1) (v.digits, junk)).1⟩ one)
        = enc ⟨(shr_loop (n + 1) (v.digits, junk)).1⟩ + 1 := by
      rw [a2]; omega
    have bR := sign_cell_enc _ a1
    have bR0 := a1.2
    refine ⟨a1, ?_, _, 1, rem, Or.inr rfl, r0, r1, bE.1, by rw [s5, pow_succ]; ring, hval⟩
    have hd0 : 0 ≤ sign_cell (mp_add ⟨(shr_loop (n + 1) (v.digits, junk)).1⟩ one) := by
      have hl := a1.1
      generalize (mp_add ⟨(shr_loop (n + 1) (v.digits, junk)).1⟩ one) = w at *
      obtain ⟨l⟩ := w
      cases l with
      | nil => simp [mp_digits] at hl
      | cons x xs => exact (Digits_cons.mp bR0).1.1
    rw [hval] at bR
    omega

/-- C3: for every valid non-negative value `v` (cells in `[0, 9]`, sign cell
0) and every `bits ≥ 1`, whatever the local `spilover` held on entry,
`mp_shr v bits` is `v` divided by `2^bits` rounded half-up: its encoding is
`⌊(enc v + 2^(bits-1)) / 2^bits⌋`, which is `⌊enc v / 2^bits⌋` plus one exactly
when bit `bits-1` of `enc v` is set, and the sign cell stays 0 (the cells stay
in `[0, 9]`). -/
theorem mp_shr_nonneg_round_half_up (junk : Int) (v : mp_num) (bits : Int)
    (hv : cells_ok v) (hs : sign_cell v = 0) (hb : 1 ≤ bits) :
    enc (mp_shr junk v bits) = (enc v + 2 ^ (bits.toNat - 1)) / 2 ^ bits.toNat ∧
    enc (mp_shr junk v bits) = enc v / 2 ^ bits.toNat
      + (if (enc v / 2 ^ (bits.toNat - 1)) % 2 = 1 then 1 else 0) ∧
    sign_cell (mp_shr junk v bits) = 0 ∧ cells_ok (mp_shr junk v bits) := by
  obtain ⟨n, rfl⟩ : ∃ n : Nat, bits = ((n + 1 : Nat) : Int) := ⟨(bits - 1).toNat, by omega⟩
  obtain ⟨k1, k2, E, c, rem, hc, r0, r1, _, hN, hR⟩ := mp_shr_nonneg_spec junk v n hv hs
  have hP : (0 : Int) < 2 ^ n := by positivity
  obtain ⟨q1, q2, q3⟩ := split_quotients (enc v) (2 ^ n) E c rem hP hc r0 r1 hN
  have e2 : (2 : Int) ^ (n + 1) = 2 * 2 ^ n := by ring
  simp only [Int.toNat_ofNat, Nat.add_sub_cancel, e2]
  refine ⟨by rw [hR, q2], ?_, k2, k1⟩
  rw [hR, q1, q3]
  rcases hc with rfl | rfl <;> simp

theorem mp_shr_nonneg_round_half_up_witness :
    cells_ok main_init.1.real ∧ sign_cell main_init.1.real = 0 ∧ (1 : Int) ≤ 3 ∧
    enc (mp_shr 0 main_init.1.real 3)
      = (enc main_init.1.real + 2 ^ ((3 : Int).toNat - 1)) / 2 ^ (3 : Int).toNat :=
  ⟨by decide, by decide, by decide,
    (mp_shr_nonneg_round_half_up 0 main_init.1.real 3 (by decide) (by decide) (by decide)).1⟩

/-- C4 fails on the code for negative values: shifting the value of one unit
below zero (all cells 9, signed value `-1`) by one bit gives the signed value
`-2`, at distance `3/2` from the exact quotient `-1/2`: the truncated result
`-1` is moved away from zero.  In integers, `|2 * val r - val v| ≤ 1` fails. -/
theorem mp_shr_negative_rounds_away :
    valid ⟨List.replicate 24 9⟩ ∧ val ⟨List.replicate 24 9⟩ = -1 ∧
    (∀ junk : Int, mp_shr junk ⟨List.replicate 24 9⟩ 1
      = ⟨List.replicate 23 9 ++ [8]⟩) ∧
    val ⟨List.replicate 23 9 ++ [8]⟩ = -2 ∧
    ¬ (|2 ^ 1 * val ⟨List.replicate 23 9 ++ [8]⟩ - val ⟨List.replicate 24 9⟩| ≤ 2 ^ (1 - 1)) := by
  refine ⟨by decide, by decide, fun junk => ?_, by decide, by decide⟩
  have h : mp_shr 0 ⟨List.replicate 24 9⟩ 1 = ⟨List.replicate 23 9 ++ [8]⟩ := by decide
  rw [← h]
  rfl

/-! ## Loading -/

/-- The scan loop of `mp_load` writes the digits of the text, in order, into
the cells from index `i` on, until the cells are full or the text ends. -/
theorem load_loop_spec : ∀ (cs : List Char) (i : Nat) (pre : List Int),
    pre.length = i → i ≤ mp_digits →
    load_loop cs i (pre ++ List.replicate (mp_digits - i) 0)
      = pre ++ ((((c_chars cs).filter (fun c => decide (48 ≤ c.toNat ∧ c.toNat ≤ 57))).take
            (mp_digits - i)).map (fun c => (c.toNat : Int) - 48)
          ++ List.replicate (mp_digits - i
            - (((c_chars cs).filter (fun c => decide (48 ≤ c.toNat ∧ c.toNat ≤ 57))).take
                (mp_digits - i)).length) 0)
  | [], i, pre, _, _ => by simp [load_loop, c_chars]
  | c :: cs, i, pre, hp, hi => by
    unfold load_loop
    by_cases h24 : i < mp_digits
    · rw [if_pos h24]
      by_cases h0 : c.toNat = 0
      · rw [if_pos h0]
        simp [c_chars, List.takeWhile_cons, h0]
      · rw [if_neg h0]
        have hcc : c_chars (c :: cs) = c :: c_chars cs := by
          simp [c_chars, List.takeWhile_cons, h0]
        by_cases hd : c.toNat < 48 ∨ c.toNat > 57
        · rw [if_pos hd, load_loop_spec cs i pre hp hi, hcc]
          have hnd : ¬ (48 ≤ c.toNat ∧ c.toNat ≤ 57) := by omega
          simp [List.filter_cons, hnd]
        · rw [if_neg hd]
          have hdig : 48 ≤ c.toNat ∧ c.toNat ≤ 57 := by omega
          have h8 : int8 ((c.toNat : Int) - 48) = (c.toNat : Int) - 48 :=
            int8_of_range _ (by omega) (by omega)
          obtain ⟨k, hk⟩ : ∃ k, mp_digits - i = k + 1 := ⟨mp_digits - i - 1, by omega⟩
          have hk2 : mp_digits - (i + 1) = k := by omega
          have hset : (pre ++ List.replicate (mp_digits - i) 0).set i ((c.toNat : Int) - 48)
              = (pre ++ [(c.toNat : Int) - 48]) ++ List.replicate (mp_digits - (i + 1)) 0 := by
            rw [List.set_append_right _ _ (by omega), hp, Nat.sub_self, hk, hk2,
              List.replicate_succ, List.set_cons_zero]
            simp
          rw [h8, hset, load_loop_spec cs (i + 1) (pre ++ [(c.toNat : Int) - 48])
            (by simp [hp]) (by omega), hcc, hk, hk2]
          simp [List.filter_cons, hdig]
    · rw [if_neg h24]
      have : mp_digits - i = 0 := by omega
      simp [this]

theorem mp_load_spec (text : List Char) :
    mp_load text
      = (0, if text.head? = some '-' then mp_neg (load_value text) else load_value text) := by
  have h := load_loop_spec text 1 [0] rfl (by decide)
  have hz : List.replicate mp_digits (0 : Int) = [0] ++ List.replicate (mp_digits - 1) 0 := by
    decide
  have hv : (⟨load_loop text 1 (List.replicate mp_digits 0)⟩ : mp_num) = load_value text := by
    rw [hz, h]
    simp [load_value, load_ds, mp_digits]
  simp only [mp_load, hv]

/-- C10: lenient load.  For every text, with `load_ds text` the characters
of the text (up to its NUL) that lie in `'0'..'9'`, in order, cut to the first
23, and `load_value text` the value with sign cell 0, these digits in the
cells from 1 on and every remaining cell 0: `mp_load` returns 0 and stores
`load_value text` when the text does not begin with `-`, and its `mp_neg` when
it does.  `"0001"` gives 0.001, `"1"` gives 1 and `"-0.1"` gives -0.1 (in
units of `10^-22`). -/
theorem mp_load_lenient (text : List Char) :
    (mp_load text).1 = 0 ∧
    (mp_load text).2
      = (if text.head? = some '-' then mp_neg (load_value text) else load_value text) ∧
    val (mp_load "0001".toList).2 = 10 ^ 19 ∧
    val (mp_load "1".toList).2 = 10 ^ 22 ∧
    val (mp_load "-0.1".toList).2 = -10 ^ 21 := by
  rw [mp_load_spec text]
  exact ⟨rfl, rfl, by decide, by decide, by decide⟩

/-! ## The rotation -/

/-- C9: one CORDIC micro-rotation and its direction tie-break.  For every
table of `stages` entries, every vector `(re, im)`, every valid residual angle
`a` and every stage `s < 75`, with `d` the table entry of the stage and the
two shifted parts `mp_shr im s` and `mp_shr re s`: when the sign cell of `a` is
0 (zero included) `cordic_rot` returns `(mp_sub re si, mp_add im sr)` and
`mp_sub a d`; when it is 9 it returns `(mp_add re si, mp_sub im sr)` and
`mp_add a d`.  The loop of `main` passes each stage the angle the stage before
returned. -/
theorem cordic_rot_step (angle_tbl : List mp_num) (junk : Int × Int) (re im a : mp_num)
    (s : Nat) (hlen : angle_tbl.length = stages) (hs : s < stages) (ha : valid a) :
    ∃ d, angle_tbl[s]? = some d ∧
      (sign_cell a = 0 → cordic_rot angle_tbl junk ⟨re, im⟩ a s
        = some (⟨mp_sub re (mp_shr junk.1 im s), mp_add im (mp_shr junk.2 re s)⟩,
                mp_sub a d)) ∧
      (sign_cell a = 9 → cordic_rot angle_tbl junk ⟨re, im⟩ a s
        = some (⟨mp_add re (mp_shr junk.1 im s), mp_sub im (mp_shr junk.2 re s)⟩,
                mp_add a d)) ∧
      (sign_cell a = 0 ∨ sign_cell a = 9) ∧
      ∀ (jf : Nat → Int × Int) (n : Nat) (st : coord_t × mp_num),
        main_loop angle_tbl jf (n + 1) st
          = (main_loop angle_tbl jf n st).bind
              (fun p => cordic_rot angle_tbl (jf n) p.1 p.2 n) := by
  have hlt : s < angle_tbl.length := by rw [hlen]; exact hs
  refine ⟨angle_tbl[s], List.getElem?_eq_getElem hlt, ?_, ?_, ha.2, ?_⟩
  · intro h0
    have hn : mp_isneg a = 0 := by
      have : a.digits.getD 0 0 = 0 := h0
      unfold mp_isneg
      rw [this, if_neg (by decide)]
    simp only [cordic_rot, List.getElem?_eq_getElem hlt, hn, if_true]
  · intro h9
    have hn : mp_isneg a = 1 := by
      have : a.digits.getD 0 0 = 9 := h9
      unfold mp_isneg
      rw [this, if_pos rfl]
    simp only [cordic_rot, List.getElem?_eq_getElem hlt, hn]
    rfl
  · intro jf n st
    simp only [main_loop]
    cases main_loop angle_tbl jf n st <;> rfl

theorem cordic_rot_step_witness :
    init_table.length = stages ∧ 3 < stages ∧ valid main_init.2 ∧
    sign_cell main_init.2 = 0 ∧
    ∃ d, init_table[3]? = some d ∧
      cordic_rot init_table (0, 0) main_init.1 main_init.2 3
        = some (⟨mp_sub main_init.1.real (mp_shr 0 main_init.1.imag 3),
                 mp_add main_init.1.imag (mp_shr 0 main_init.1.real 3)⟩,
                mp_sub main_init.2 d) :=
  ⟨by decide, by decide, by decide, by decide,
    (cordic_rot_step init_table (0, 0) main_init.1.real main_init.1.imag main_init.2 3
      (by decide) (by decide) (by decide)).imp (fun _ h => ⟨h.1, h.2.1 (by decide)⟩)⟩

/-! ## The run of `main` -/

/-- Only whether the content of `spilover` on entry is 0 matters to `mp_shr`. -/
theorem mp_shr_junk_bit (j : Int) (op : mp_num) (bits : Int) :
    mp_shr j op bits = mp_shr (junk_bit j) op bits := by
  unfold mp_shr
  cases h : bits.toNat with
  | zero =>
    simp only [shr_loop]
    by_cases hj : j = 0
    · subst hj; rfl
    · have hb : junk_bit j = 1 := by simp [junk_bit, hj]
      rw [hb]
      simp only [ne_eq, hj, not_false_eq_true, if_true, one_ne_zero]
  | succ n => rfl

/-- With a positive shift count the content of `spilover` on entry is not read. -/
theorem mp_shr_junk_pos (j : Int) (op : mp_num) (bits : Int) (hb : 1 ≤ bits) :
    mp_shr j op bits = mp_shr 0 op bits := by
  unfold mp_shr
  obtain ⟨n, hn⟩ : ∃ n, bits.toNat = n + 1 := ⟨bits.toNat - 1, by omega⟩
  rw [hn]
  rfl

theorem cordic_rot_junk_bit (tbl : List mp_num) (j : Int × Int) (c : coord_t) (a : mp_num)
    (s : Nat) :
    cordic_rot tbl j c a s = cordic_rot tbl (junk_bit j.1, junk_bit j.2) c a s := by
  unfold cordic_rot
  rw [mp_shr_junk_bit j.1, mp_shr_junk_bit j.2]

theorem cordic_rot_junk_pos (tbl : List mp_num) (j : Int × Int) (c : coord_t) (a : mp_num)
    (s : Nat) (hs : 1 ≤ s) :
    cordic_rot tbl j c a s = cordic_rot tbl (0, 0) c a s := by
  unfold cordic_rot
  have h1 : (1 : Int) ≤ (s : Int) := by omega
  rw [mp_shr_junk_pos j.1 _ _ h1, mp_shr_junk_pos j.2 _ _ h1]

/-- A run of the loop of `main` depends on the unassigned locals only through
whether the two read at stage 0 are 0. -/
theorem main_loop_junk (tbl : List mp_num) (junk : Nat → Int × Int) (st : coord_t × mp_num) :
    ∀ n, main_loop tbl junk n st
      = main_loop tbl (junk_at0 (junk_bit (junk 0).1) (junk_bit (junk 0).2)) n st
  | 0 => rfl
  | n + 1 => by
    simp only [main_loop]
    rw [main_loop_junk tbl junk st n]
    cases main_loop tbl (junk_at0 (junk_bit (junk 0).1) (junk_bit (junk 0).2)) n st with
    | none => rfl
    | some p =>
      simp only
      cases n with
      | zero =>
        rw [cordic_rot_junk_bit]
        rfl
      | succ m =>
        rw [cordic_rot_junk_pos _ _ _ _ _ (by omega)]
        rfl

theorem junk_bit_cases (j : Int) : junk_bit j = 0 ∨ junk_bit j = 1 := by
  unfold junk_bit
  split
  · exact Or.inl rfl
  · exact Or.inr rfl

theorem sign_cell_range (v : mp_num) (h : cells_ok v) : 0 ≤ sign_cell v ∧ sign_cell v ≤ 9 := by
  obtain ⟨l⟩ := v
  obtain ⟨hl, hd⟩ := h
  cases l with
  | nil => simp [mp_digits] at hl
  | cons x xs => exact (Digits_cons.mp hd).1

theorem sign_cell_zero_of_enc_lt (v : mp_num) (h : cells_ok v) (hlt : enc v < 10 ^ 23) :
    sign_cell v = 0 := by
  have h1 := sign_cell_enc v h
  have h2 := sign_cell_range v h
  omega

theorem mp_isneg_of_enc (v : mp_num) (h : cells_ok v) :
    mp_isneg v = if enc v < 9 * 10 ^ 23 then 0 else 1 := by
  have h1 := sign_cell_enc v h
  have h2 := sign_cell_range v h
  have e : mp_isneg v = if sign_cell v = 9 then 1 else 0 := rfl
  rw [e]
  split <;> split <;> omega

/-- The encoding of `mp_shr` on a non-negative value, for every shift count. -/
theorem mp_shr_sim (j : Int) (v : mp_num) (s : Nat) (hv : cells_ok v)
    (hs : sign_cell v = 0) :
    cells_ok (mp_shr j v (s : Int)) ∧ enc (mp_shr j v (s : Int)) = sim_shr j (enc v) s := by
  cases s with
  | zero =>
    have bN := sign_cell_enc v hv
    rw [hs] at bN
    have hunf : mp_shr j v ((0 : Nat) : Int)
        = if j ≠ 0 then (if sign_cell v = 0 then mp_add v one else mp_sub v one) else v := rfl
    rw [hunf, hs]
    simp only [sim_shr, if_true, junk_bit]
    by_cases hj : j = 0
    · simp only [hj, ne_eq, not_true_eq_false, if_false, if_true, add_zero]
      exact ⟨hv, trivial⟩
    · simp only [hj, ne_eq, not_false_eq_true, if_true, if_false]
      obtain ⟨a1, _, _⟩ := mp_add_spec v one hv one_ok
      have a2 := mp_add_enc_mod v one hv one_ok
      rw [enc_one] at a2
      refine ⟨a1, ?_⟩
      rw [a2]; omega
  | succ n =>
    obtain ⟨k1, _, E, c, rem, hc, r0, r1, _, hN, hR⟩ := mp_shr_nonneg_spec j v n hv hs
    have hP : (0 : Int) < 2 ^ n := by positivity
    obtain ⟨_, q2, _⟩ := split_quotients (enc v) (2 ^ n) E c rem hP hc r0 r1 hN
    have e2 : (2 : Int) ^ (n + 1) = 2 * 2 ^ n := by ring
    refine ⟨k1, ?_⟩
    rw [hR]
    simp only [sim_shr, Nat.add_one_ne_zero, if_false, Nat.add_sub_cancel, e2, q2]

/-- One call of `cordic_rot` on a non-negative vector, in encodings. -/
theorem cordic_rot_sim (tbl : List mp_num) (j : Int × Int) (c : coord_t) (a d : mp_num)
    (s : Nat) (hd : tbl[s]? = some d) (hdo : cells_ok d)
    (hre : cells_ok c.real) (him : cells_ok c.imag) (ha : cells_ok a)
    (sre : enc c.real < 10 ^ 23) (sim : enc c.imag < 10 ^ 23) :
    ∃ st, cordic_rot tbl j c a s = some st ∧
      cells_ok st.1.real ∧ cells_ok st.1.imag ∧ cells_ok st.2 ∧
      enc_state st = sim_rot j (enc d) (enc_state (c, a)) s := by
  obtain ⟨i1, i2⟩ := mp_shr_sim j.1 c.imag s him (sign_cell_zero_of_enc_lt _ him sim)
  obtain ⟨r1, r2⟩ := mp_shr_sim j.2 c.real s hre (sign_cell_zero_of_enc_lt _ hre sre)
  have hneg := mp_isneg_of_enc a ha
  simp only [cordic_rot, hd, hneg, sim_rot, enc_state]
  by_cases hz : enc a < 9 * 10 ^ 23
  · simp only [hz, if_true]
    obtain ⟨x1, x2⟩ := mp_sub_spec c.real _ hre i1
    obtain ⟨y1, _, _⟩ := mp_add_spec c.imag _ him r1
    have y2 := mp_add_enc_mod c.imag _ him r1
    obtain ⟨z1, z2⟩ := mp_sub_spec a d ha hdo
    exact ⟨_, rfl, x1, y1, z1, by rw [x2, y2, z2, i2, r2]⟩
  · simp only [hz, if_false, show ¬ ((1 : Int) = 0) by decide]
    obtain ⟨x1, _, _⟩ := mp_add_spec c.real _ hre i1
    have x2 := mp_add_enc_mod c.real _ hre i1
    obtain ⟨y1, y2⟩ := mp_sub_spec c.imag _ him r1
    obtain ⟨z1, _, _⟩ := mp_add_spec a d ha hdo
    have z2 := mp_add_enc_mod a d ha hdo
    exact ⟨_, rfl, x1, y1, z1, by rw [x2, y2, z2, i2, r2]⟩

theorem init_table_enc : init_table.map enc = table_enc := by decide

theorem init_table_ok : ∀ d ∈ init_table, cells_ok d := by decide

theorem init_table_length : init_table.length = stages := by decide

theorem init_table_entry (k : Nat) (hk : k < stages) :
    ∃ d, init_table[k]? = some d ∧ cells_ok d ∧ enc d = table_enc.getD k 0 := by
  have hlt : k < init_table.length := by rw [init_table_length]; exact hk
  refine ⟨init_table[k], List.getElem?_eq_getElem hlt,
    init_table_ok _ (List.getElem_mem hlt), ?_⟩
  rw [← init_table_enc, List.getD_eq_getElem?_getD, List.getElem?_map,
    List.getElem?_eq_getElem hlt]
  rfl

theorem main_init_ok :
    cells_ok main_init.1.real ∧ cells_ok main_init.1.imag ∧ cells_ok main_init.2 := by
  decide

/-- While the simulated vector stays non-negative, the loop of `main` returns a
state with cells in `[0, 9]` whose encodings are the simulated ones. -/
theorem main_loop_sim (jf : Nat → Int × Int)
    (hb : ∀ k < stages, (sim_loop table_enc jf k (enc_state main_init)).1 < 10 ^ 23 ∧
      (sim_loop table_enc jf k (enc_state main_init)).2.1 < 10 ^ 23) :
    ∀ n, n ≤ stages → ∃ st, main_loop init_table jf n main_init = some st ∧
      cells_ok st.1.real ∧ cells_ok st.1.imag ∧ cells_ok st.2 ∧
      enc_state st = sim_loop table_enc jf n (enc_state main_init)
  | 0, _ => ⟨main_init, rfl, main_init_ok.1, main_init_ok.2.1, main_init_ok.2.2, rfl⟩
  | n + 1, hn => by
    obtain ⟨st, e, o1, o2, o3, es⟩ := main_loop_sim jf hb n (by omega)
    obtain ⟨d, hd, hdo, hde⟩ := init_table_entry n (by omega)
    have hbn := hb n (by omega)
    rw [← es] at hbn
    obtain ⟨st2, e2, p1, p2, p3, es2⟩ :=
      cordic_rot_sim init_table (jf n) st.1 st.2 d n hd hdo o1 o2 o3 hbn.1 hbn.2
    refine ⟨st2, ?_, p1, p2, p3, ?_⟩
    · simp only [main_loop, e]
      exact e2
    · rw [es2, hde]
      show sim_rot (jf n) (table_enc.getD n 0) (enc_state st) n = _
      rw [es]
      rfl

/-- The final state of `main` from the simulated encodings. -/
theorem main_run_of_sim (jf : Nat → Int × Int) (x y z : Int)
    (hb : ∀ k < stages, (sim_loop table_enc jf k (enc_state main_init)).1 < 10 ^ 23 ∧
      (sim_loop table_enc jf k (enc_state main_init)).2.1 < 10 ^ 23)
    (hf : sim_loop table_enc jf stages (enc_state main_init) = (x, y, z))
    (hx : cells_ok (of_enc x) ∧ enc (of_enc x) = x)
    (hy : cells_ok (of_enc y) ∧ enc (of_enc y) = y)
    (hz : cells_ok (of_enc z) ∧ enc (of_enc z) = z) :
    main_run jf = some (⟨of_enc x, of_enc y⟩, of_enc z) := by
  obtain ⟨st, e, o1, o2, o3, es⟩ := main_loop_sim jf hb stages (le_refl _)
  rw [hf] at es
  have h1 : enc st.1.real = x := congrArg (fun t => t.1) es
  have h2 : enc st.1.imag = y := congrArg (fun t => t.2.1) es
  have h3 : enc st.2 = z := congrArg (fun t => t.2.2) es
  have r1 := enc_inj st.1.real (of_enc x) o1 hx.1 (by rw [h1, hx.2])
  have r2 := enc_inj st.1.imag (of_enc y) o2 hy.1 (by rw [h2, hy.2])
  have r3 := enc_inj st.2 (of_enc z) o3 hz.1 (by rw [h3, hz.2])
  unfold main_run
  rw [e]
  obtain ⟨⟨re, im⟩, a⟩ := st
  simp only at r1 r2 r3
  rw [r1, r2, r3]

theorem main_run_00 :
    main_run (junk_at0 0 0)
      = some (⟨of_enc 8660254037844386467630, of_enc 5000000000000000000009⟩, of_enc 999999999999999999999999) :=
  main_run_of_sim _ _ _ _ (by decide) (by decide) (by decide) (by decide) (by decide)

theorem main_run_01 :
    main_run (junk_at0 0 1)
      = some (⟨of_enc 8660254037844386467632, of_enc 5000000000000000000011⟩, of_enc 999999999999999999999999) :=
  main_run_of_sim _ _ _ _ (by decide) (by decide) (by decide) (by decide) (by decide)

theorem main_run_10 :
    main_run (junk_at0 1 0)
      = some (⟨of_enc 8660254037844386467629, of_enc 5000000000000000000008⟩, of_enc 999999999999999999999999) :=
  main_run_of_sim _ _ _ _ (by decide) (by decide) (by decide) (by decide) (by decide)

theorem main_run_11 :
    main_run (junk_at0 1 1)
      = some (⟨of_enc 8660254037844386467630, of_enc 5000000000000000000010⟩, of_enc 999999999999999999999999) :=
  main_run_of_sim _ _ _ _ (by decide) (by decide) (by decide) (by decide) (by decide)

/-- C1: the convergence scenario.  Whatever the unassigned locals of `mp_shr`
hold, the run of `main` (table built by `init_table`, angle
`0.5235987755982988730771...`, vector `(0.6072529350088812561694..., 0.0)`,
stages `0 .. 74` in increasing order) returns a state whose residual angle has
magnitude below `10^-19` (it is printed as `-0.0000000000000000000001`), whose
`real` part prints as a text beginning `0.86602540378`, and whose `imag` part
differs from `0.5` by less than `10^-11` (values in units of `10^-22`). -/
theorem main_run_converges (junk : Nat → Int × Int) :
    ∃ c a, main_run junk = some (c, a) ∧
      |val a| < 10 ^ 3 ∧ mp_print a = "-0.0000000000000000000001".toList ∧
      (mp_print c.real).take 13 = "0.86602540378".toList ∧
      |val c.imag - 5 * 10 ^ 21| < 10 ^ 11 := by
  have h : main_run junk
      = main_run (junk_at0 (junk_bit (junk 0).1) (junk_bit (junk 0).2)) :=
    main_loop_junk init_table junk main_init stages
  rw [h]
  rcases junk_bit_cases (junk 0).1 with h1 | h1 <;>
    rcases junk_bit_cases (junk 0).2 with h2 | h2 <;> rw [h1, h2]
  · rw [main_run_00]
    exact ⟨_, _, rfl, by decide, by decide, by decide, by decide⟩
  · rw [main_run_01]
    exact ⟨_, _, rfl, by decide, by decide, by decide, by decide⟩
  · rw [main_run_10]
    exact ⟨_, _, rfl, by decide, by decide, by decide, by decide⟩
  · rw [main_run_11]
    exact ⟨_, _, rfl, by decide, by decide, by decide, by decide⟩

/-- With `bits = 0` the loop of `mp_shr` does not run: the result is decided by
the content of `spilover` on entry. -/
theorem mp_shr_zero_unfold (j : Int) (v : mp_num) :
    mp_shr j v 0
      = if j ≠ 0 then (if sign_cell v = 0 then mp_add v one else mp_sub v one) else v := rfl

/-- C12 fails on the code: with `bits = 0` the local `spilover` of `mp_shr` is
read without having been assigned.  When it holds 0 the result is the operand,
cell for cell; when it holds anything else one unit is added (sign cell 0) or
subtracted, e.g. the start vector's `real` part `0.6072529350088812561694`
comes back as `0.6072529350088812561695`. -/
theorem mp_shr_zero_bits_reads_unassigned :
    (∀ v : mp_num, mp_shr 0 v 0 = v) ∧
    valid main_init.1.real ∧
    (∀ j : Int, j ≠ 0 → mp_shr j main_init.1.real 0 = mp_add main_init.1.real one) ∧
    mp_add main_init.1.real one ≠ main_init.1.real ∧
    mp_print main_init.1.real = "0.6072529350088812561694".toList ∧
    mp_print (mp_shr 1 main_init.1.real 0) = "0.6072529350088812561695".toList := by
  refine ⟨fun v => rfl, by decide, fun j hj => ?_, by decide, by decide, by decide⟩
  rw [mp_shr_zero_unfold, if_pos hj, if_pos (by decide)]

/-! ## Validity -/

theorem enc_min : enc mp_min = 9 * 10 ^ 23 := by decide

theorem min_ok : cells_ok mp_min := by decide

/-- The sign cell from the encoding. -/
theorem sign_cell_nine_of_enc_ge (v : mp_num) (h : cells_ok v) (hge : 9 * 10 ^ 23 ≤ enc v) :
    sign_cell v = 9 := by
  have h1 := sign_cell_enc v h
  have h2 := sign_cell_range v h
  omega

/-- C15 fails at the most negative value: it is valid (sign cell 9, every other
cell 0), and `mp_neg` gives the cells `1, 0, ..., 0`, whose sign cell is
neither 0 nor 9. -/
theorem mp_neg_min_not_valid :
    valid mp_min ∧ ¬ valid (mp_neg mp_min) ∧
    mp_neg mp_min = ⟨1 :: List.replicate 23 0⟩ := by
  decide

/-- C15 as amended: for every valid value other than the most negative one
(sign cell 9, every other cell 0), `mp_neg v` is a valid value again: its cells
lie in `[0, 9]` and its sign cell is 0 or 9. -/
theorem mp_neg_valid (v : mp_num) (hv : valid v) (hne : v ≠ mp_min) : valid (mp_neg v) := by
  obtain ⟨n1, n2⟩ := mp_neg_spec v hv.1
  have hb := enc_bounds v hv.1
  have s1 := sign_cell_enc v hv.1
  refine ⟨n1, ?_⟩
  rcases hv.2 with h | h
  · rw [h] at s1
    by_cases h0 : enc v = 0
    · left
      apply sign_cell_zero_of_enc_lt _ n1
      rw [n2, h0]; decide
    · right
      apply sign_cell_nine_of_enc_ge _ n1
      rw [n2]; omega
  · rw [h] at s1
    have hne2 : enc v ≠ 9 * 10 ^ 23 := by
      intro he
      exact hne (enc_inj v mp_min hv.1 min_ok (by rw [he, enc_min]))
    left
    apply sign_cell_zero_of_enc_lt _ n1
    rw [n2]; omega

theorem mp_neg_valid_witness :
    valid main_init.2 ∧ main_init.2 ≠ mp_min ∧ valid (mp_neg main_init.2) :=
  ⟨by decide, by decide, mp_neg_valid main_init.2 (by decide) (by decide)⟩

/-! ## Cells stay decimal digits -/

theorem load_ds_digits (text : List Char) :
    ∀ c ∈ load_ds text, 48 ≤ c.toNat ∧ c.toNat ≤ 57 := by
  intro c hc
  have h1 := List.mem_of_mem_take hc
  have h2 := (List.mem_filter.mp h1).2
  exact of_decide_eq_true h2

theorem load_ds_length (text : List Char) : (load_ds text).length ≤ 23 :=
  List.length_take_le _ _

theorem load_value_ok (text : List Char) :
    cells_ok (load_value text) ∧ sign_cell (load_value text) = 0 := by
  have hl := load_ds_length text
  refine ⟨⟨?_, ?_⟩, rfl⟩
  · simp only [load_value, List.length_cons, List.length_append, List.length_map,
      List.length_replicate, mp_digits]
    omega
  · intro d hd
    simp only [load_value, List.mem_cons, List.mem_append, List.mem_map,
      List.mem_replicate] at hd
    rcases hd with rfl | ⟨c, hc, rfl⟩ | ⟨_, rfl⟩
    · decide
    · have := load_ds_digits text c hc
      omega
    · decide

theorem shr_bit_digits (l : List Int) (h : Digits l) :
    (shr_bit l).1.length = l.length ∧ Digits (shr_bit l).1 := by
  cases l with
  | nil => exact ⟨rfl, Digits_nil⟩
  | cons s ts =>
    have hd := Digits_cons.mp h
    obtain ⟨c0, hc0, hsp⟩ : ∃ c0 : Int, (c0 = 0 ∨ c0 = 1) ∧
        (if s = 9 then (5 : Int) else 0) = 5 * c0 := by
      by_cases hs : s = 9
      · exact ⟨1, Or.inr rfl, by rw [if_pos hs]; rfl⟩
      · exact ⟨0, Or.inl rfl, by rw [if_neg hs]; rfl⟩
    obtain ⟨l1, l2, _⟩ := shr_cells_spec ts c0 hd.2 hc0
    have hshape : shr_bit (s :: ts)
        = (s :: (shr_cells ts (5 * c0)).1, (shr_cells ts (5 * c0)).2) := by
      simp [shr_bit, hsp]
    rw [hshape]
    exact ⟨by simp [l1], Digits_cons.mpr ⟨hd.1, l2⟩⟩

theorem shr_loop_digits : ∀ (n : Nat) (st : List Int × Int), Digits st.1 →
    (shr_loop n st).1.length = st.1.length ∧ Digits (shr_loop n st).1
  | 0, _, h => ⟨rfl, h⟩
  | n + 1, st, h => by
    obtain ⟨b1, b2⟩ := shr_bit_digits st.1 h
    obtain ⟨i1, i2⟩ := shr_loop_digits n (shr_bit st.1) b2
    exact ⟨i1.trans b1, i2⟩

/-- The cells of `mp_shr` are decimal digits for every shift count and
whatever `spilover` held on entry. -/
theorem mp_shr_ok (j : Int) (v : mp_num) (bits : Int) (h : cells_ok v) :
    cells_ok (mp_shr j v bits) := by
  obtain ⟨s1, s2⟩ := shr_loop_digits bits.toNat (v.digits, j) h.2
  have hst : cells_ok ⟨(shr_loop bits.toNat (v.digits, j)).1⟩ := ⟨s1.trans h.1, s2⟩
  unfold mp_shr
  simp only
  split
  · split
    · exact (mp_add_spec _ one hst one_ok).1
    · exact (mp_sub_spec _ one hst one_ok).1
  · exact hst

theorem mp_load_ok (text : List Char) : cells_ok (mp_load text).2 := by
  rw [mp_load_spec]
  simp only
  split
  · exact (mp_neg_spec _ (load_value_ok text).1).1
  · exact (load_value_ok text).1

/-- C16: the digit-range invariant.  When every cell of the operands lies in
`[0, 9]`, every cell of the result of `mp_neg`, `mp_add`, `mp_sub` and `mp_shr`
(for every shift count, and whatever `spilover` held on entry) lies in
`[0, 9]`; and for every text every cell of the value `mp_load` stores lies in
`[0, 9]`. -/
theorem cells_stay_digits (j : Int) (a b : mp_num) (bits : Int) (text : List Char)
    (ha : cells_ok a) (hb : cells_ok b) :
    cells_ok (mp_neg a) ∧ cells_ok (mp_add a b) ∧ cells_ok (mp_sub a b) ∧
    cells_ok (mp_shr j a bits) ∧ cells_ok (mp_load text).2 :=
  ⟨(mp_neg_spec a ha).1, (mp_add_spec a b ha hb).1, (mp_sub_spec a b ha hb).1,
    mp_shr_ok j a bits ha, mp_load_ok text⟩

theorem cells_stay_digits_witness :
    cells_ok main_init.1.real ∧ cells_ok main_init.2 ∧
    cells_ok (mp_neg main_init.1.real) ∧ cells_ok (mp_add main_init.1.real main_init.2) ∧
    cells_ok (mp_sub main_init.1.real main_init.2) ∧
    cells_ok (mp_shr 7 main_init.1.real 5) ∧ cells_ok (mp_load "-1.5x".toList).2 :=
  ⟨by decide, by decide,
    cells_stay_digits 7 main_init.1.real main_init.2 5 "-1.5x".toList (by decide) (by decide)⟩

/-! ## Shifting further -/

/-- Halving once more does not increase a half-up rounded quotient. -/
theorem round_step (N P : Int) (hN : 0 ≤ N) (hP : 0 < P) :
    (N + 2 * P) / (4 * P) ≤ (N + P) / (2 * P) := by
  apply Int.le_ediv_of_mul_le (by omega)
  have h4 : (0 : Int) < 4 * P := by omega
  have hq0 : 0 ≤ (N + 2 * P) / (4 * P) := Int.ediv_nonneg (by omega) (by omega)
  have hq1 := Int.ediv_mul_le (N + 2 * P) (b := 4 * P) (by omega)
  by_cases hz : (N + 2 * P) / (4 * P) = 0
  · rw [hz]; omega
  · have h1 : 1 * P ≤ (N + 2 * P) / (4 * P) * P :=
      mul_le_mul_of_nonneg_right (by omega) hP.le
    nlinarith

/-- A half-up rounded quotient of a non-negative number does not exceed it. -/
theorem round_le_self (N P : Int) (hN : 0 ≤ N) (hP : 0 < P) : (N + P) / (2 * P) ≤ N := by
  have : (N + P) / (2 * P) < N + 1 := by
    apply Int.ediv_lt_of_lt_mul (by omega)
    have h1 : N * 1 ≤ N * P := mul_le_mul_of_nonneg_left (by omega) hN
    nlinarith
  omega

theorem sim_shr_succ (j x : Int) (n : Nat) :
    sim_shr j x (n + 1) = (x + 2 ^ n) / (2 * 2 ^ n) := by
  have e2 : (2 : Int) ^ (n + 1) = 2 * 2 ^ n := by ring
  simp only [sim_shr, Nat.add_one_ne_zero, if_false, Nat.add_sub_cancel, e2]

theorem sim_shr_antitone (j j' x : Int) (hx : 0 ≤ x) (n : Nat) :
    ∀ d : Nat, sim_shr j' x (n + 1 + d) ≤ sim_shr j x (n + 1)
  | 0 => by rw [sim_shr_succ, sim_shr_succ]
  | d + 1 => by
    have ih := sim_shr_antitone j j' x hx n d
    have hP : (0 : Int) < 2 ^ (n + d) := by positivity
    have hs := round_step x (2 ^ (n + d)) hx hP
    have e1 : n + 1 + (d + 1) = (n + d + 1) + 1 := by omega
    have e2 : n + 1 + d = (n + d) + 1 := by omega
    rw [e2, sim_shr_succ] at ih
    rw [e1, sim_shr_succ]
    have e3 : (2 : Int) ^ (n + d + 1) = 2 * 2 ^ (n + d) := by ring
    rw [e3]
    have e4 : (2 : Int) * (2 * 2 ^ (n + d)) = 4 * 2 ^ (n + d) := by ring
    rw [e4]
    exact le_trans hs ih

theorem val_of_enc_lt (v : mp_num) (h : cells_ok v) (hlt : enc v < 9 * 10 ^ 23) :
    val v = enc v := by
  have h1 := sign_cell_enc v h
  unfold val
  rw [if_neg (by omega)]

/-- Shift monotonic decay where the unassigned local plays no part: for every
non-negative value `v` with cells in `[0, 9]` and shift counts `b ≤ b'` that
are not both 0, the value of `mp_shr v b'` is at most the value of
`mp_shr v b`, whatever `spilover` held on entry of either call. -/
theorem mp_shr_monotone_pos (j j2 : Int) (v : mp_num) (b b2 : Nat)
    (hv : cells_ok v) (hs : sign_cell v = 0) (hbb : b ≤ b2) (hcase : b < b2 ∨ 1 ≤ b) :
    val (mp_shr j2 v (b2 : Int)) ≤ val (mp_shr j v (b : Int)) := by
  obtain ⟨o1, e1⟩ := mp_shr_sim j v b hv hs
  obtain ⟨o2, e2⟩ := mp_shr_sim j2 v b2 hv hs
  have bN := sign_cell_enc v hv
  rw [hs] at bN
  have hx : 0 ≤ enc v := (enc_bounds v hv).1
  have jb := junk_bit_cases j
  have key : sim_shr j2 (enc v) b2 ≤ sim_shr j (enc v) b ∧ sim_shr j (enc v) b ≤ 10 ^ 23 := by
    cases b with
    | zero =>
      have hb0 : sim_shr j (enc v) 0 = enc v + junk_bit j := rfl
      cases b2 with
      | zero => omega
      | succ m =>
        have hP : (0 : Int) < 2 ^ m := by positivity
        have := round_le_self (enc v) (2 ^ m) hx hP
        rw [sim_shr_succ, hb0]
        exact ⟨by omega, by omega⟩
    | succ n =>
      obtain ⟨d, rfl⟩ : ∃ d, b2 = n + 1 + d := ⟨b2 - (n + 1), by omega⟩
      have hP : (0 : Int) < 2 ^ n := by positivity
      have := round_le_self (enc v) (2 ^ n) hx hP
      refine ⟨sim_shr_antitone j j2 (enc v) hx n d, ?_⟩
      rw [sim_shr_succ]; omega
  rw [val_of_enc_lt _ o1 (by rw [e1]; omega), val_of_enc_lt _ o2 (by rw [e2]; omega), e1, e2]
  exact key.1

/-- C13 fails on the code at `b = b' = 0`, where `mp_shr` reads its local
`spilover` unassigned: two calls with shift count 0 on the same valid
non-negative value need not agree.  On the start vector's `real` part
`0.6072529350088812561694`, a call that finds 0 in `spilover` returns the
value, a call that finds anything else returns `0.6072529350088812561695`,
which is larger, so the second is not at most the first. -/
theorem mp_shr_zero_bits_not_monotone :
    valid main_init.1.real ∧ sign_cell main_init.1.real = 0 ∧ (0 : Nat) ≤ 0 ∧
    val (mp_shr 0 main_init.1.real ((0 : Nat) : Int)) = 6072529350088812561694 ∧
    val (mp_shr 1 main_init.1.real ((0 : Nat) : Int)) = 6072529350088812561695 ∧
    ¬ (val (mp_shr 1 main_init.1.real ((0 : Nat) : Int))
        ≤ val (mp_shr 0 main_init.1.real ((0 : Nat) : Int))) := by
  decide

theorem svalL_of_sign_nine (l : List Int) (h : l.getD 0 0 = 9) (hl : l.length = mp_digits) :
    svalL l = encL l - 10 ^ 24 := by
  unfold svalL
  rw [h, if_pos rfl, hl]
  rfl

/-- The value `mp_shr` returns for a negative value and a positive shift
count: the quotient rounded down, minus one unit when the last bit shifted out
is 1. -/
theorem mp_shr_neg_spec (junk : Int) (v : mp_num) (n : Nat)
    (hv : cells_ok v) (hs : sign_cell v = 9) :
    cells_ok (mp_shr junk v ((n + 1 : Nat) : Int)) ∧
    sign_cell (mp_shr junk v ((n + 1 : Nat) : Int)) = 9 ∧
    ∃ T c rem : Int, (c = 0 ∨ c = 1) ∧ 0 ≤ rem ∧ rem < 2 ^ n ∧
      enc v - 10 ^ 24 = 2 * 2 ^ n * T + 2 ^ n * c + rem ∧
      enc (mp_shr junk v ((n + 1 : Nat) : Int)) - 10 ^ 24 = T - c := by
  obtain ⟨s1, s2, s3, c, rem, hc, s4, r0, r1, s5⟩ :=
    shr_loop_spec 9 (Or.inr rfl) n v.digits junk hv.1 hv.2 hs
  have hst : cells_ok ⟨(shr_loop (n + 1) (v.digits, junk)).1⟩ := ⟨s1, s2⟩
  have hss : sign_cell ⟨(shr_loop (n + 1) (v.digits, junk)).1⟩ = 9 := s3
  rw [svalL_of_sign_nine _ hs hv.1, svalL_of_sign_nine _ s3 s1, ← enc_eq_encL _ hv.1,
    ← enc_eq_encL ⟨(shr_loop (n + 1) (v.digits, junk)).1⟩ s1] at s5
  have bE := sign_cell_enc _ hst
  rw [hss] at bE
  have bN := sign_cell_enc v hv
  rw [hs] at bN
  have hP : (0 : Int) < 2 ^ n := by positivity
  have e2 : (2 : Int) ^ (n + 1) = 2 * 2 ^ n := by ring
  rw [e2] at s5
  have hunf : mp_shr junk v ((n + 1 : Nat) : Int)
      = if (shr_loop (n + 1) (v.digits, junk)).2 ≠ 0 then
          (if (shr_loop (n + 1) (v.digits, junk)).1.getD 0 0 = 0
            then mp_add ⟨(shr_loop (n + 1) (v.digits, junk)).1⟩ one
            else mp_sub ⟨(shr_loop (n + 1) (v.digits, junk)).1⟩ one)
        else ⟨(shr_loop (n + 1) (v.digits, junk)).1⟩ := by
    simp only [mp_shr, Int.toNat_ofNat]
  rw [hunf, s4, s3]
  rcases hc with rfl | rfl
  · simp only [mul_zero, ne_eq, not_true_eq_false, if_false]
    exact ⟨hst, hss, enc ⟨(shr_loop (n + 1) (v.digits, junk)).1⟩ - 10 ^ 24, 0, rem,
      Or.inl rfl, r0, r1, by rw [s5], by ring⟩
  · simp only [mul_one, ne_eq, show ¬ ((5 : Int) = 0) by decide, not_false_eq_true, if_true,
      show ¬ ((9 : Int) = 0) by decide, if_false]
    obtain ⟨a1, a2⟩ := mp_sub_spec _ one hst one_ok
    rw [enc_one] at a2
    have hval : enc (mp_sub ⟨(shr_loop (n + 1) (v.digits, junk)).1⟩ one)
        = enc ⟨(shr_loop (n + 1) (v.digits, junk)).1⟩ - 1 := by
      rw [a2]; omega
    have hT : 9 * 10 ^ 23 + 1 ≤ enc ⟨(shr_loop (n + 1) (v.digits, junk)).1⟩ := by
      by_contra hcon
      have hle : enc ⟨(shr_loop (n + 1) (v.digits, junk)).1⟩ - 10 ^ 24 + 1 ≤ 0 := by omega
      have hm := mul_le_mul_of_nonpos_right (show (1 : Int) ≤ 2 ^ n by omega) hle
      have hN := bN.1
      nlinarith
    refine ⟨a1, ?_, enc ⟨(shr_loop (n + 1) (v.digits, junk)).1⟩ - 10 ^ 24, 1, rem,
      Or.inr rfl, r0, r1, by rw [s5], by rw [hval]; ring⟩
    apply sign_cell_nine_of_enc_ge _ a1
    rw [hval]; omega

/-- For a positive shift count `mp_shr` keeps the sign cell of a valid value. -/
theorem mp_shr_sign_pos (j : Int) (v : mp_num) (bits : Int) (hv : valid v) (hb : 1 ≤ bits) :
    sign_cell (mp_shr j v bits) = sign_cell v := by
  obtain ⟨n, rfl⟩ : ∃ n : Nat, bits = ((n + 1 : Nat) : Int) := ⟨(bits - 1).toNat, by omega⟩
  rcases hv.2 with h | h
  · rw [(mp_shr_nonneg_spec j v n hv.1 h).2.1, h]
  · rw [(mp_shr_neg_spec j v n hv.1 h).2.1, h]

/-- C18 fails on the code at `bits = 0`, where `mp_shr` reads its local
`spilover` unassigned: when it does not hold 0, the value
`0.9999999999999999999999` (sign cell 0, every other cell 9) gets one unit
added and comes back with sign cell 1, and the most negative value (sign cell
9, every other cell 0) gets one unit subtracted and comes back with sign
cell 8. -/
theorem mp_shr_zero_bits_changes_sign :
    valid ⟨0 :: List.replicate 23 9⟩ ∧
    mp_shr 1 ⟨0 :: List.replicate 23 9⟩ 0 = ⟨1 :: List.replicate 23 0⟩ ∧
    sign_cell (mp_shr 1 ⟨0 :: List.replicate 23 9⟩ 0) = 1 ∧
    valid mp_min ∧
    mp_shr 1 mp_min 0 = ⟨8 :: List.replicate 23 9⟩ ∧
    sign_cell (mp_shr 1 mp_min 0) = 8 := by
  decide

/-! ## The angle table -/

theorem table_enc_shape :
    (∀ k < stages, 0 < table_enc.getD k 0 ∧ table_enc.getD k 0 < 10 ^ 23) ∧
    (∀ k < stages - 1, table_enc.getD (k + 1) 0 ≤ table_enc.getD k 0) := by
  decide

/-- C20: the shape of the angle table.  After `init_table` the table has 75
entries; every entry `k < 75` is a valid, strictly positive value (sign cell 0,
not the zero value), and the entry after it, when there is one, is not
larger.  In particular the halving of entries 24 .. 74 never reaches zero. -/
theorem init_table_shape (k : Nat) (hk : k < stages) :
    init_table.length = stages ∧
    ∃ d, init_table[k]? = some d ∧ valid d ∧ sign_cell d = 0 ∧ d ≠ mp_zero ∧ 0 < val d ∧
      (k + 1 < stages →
        ∃ d2, init_table[k + 1]? = some d2 ∧ val d2 ≤ val d) := by
  obtain ⟨d, hd, hdo, hde⟩ := init_table_entry k hk
  have hs := table_enc_shape.1 k hk
  rw [← hde] at hs
  have hsign := sign_cell_zero_of_enc_lt d hdo hs.2
  have hval := val_of_enc_lt d hdo (by omega)
  refine ⟨init_table_length, d, hd, ⟨hdo, Or.inl hsign⟩, hsign, ?_, by rw [hval]; exact hs.1, ?_⟩
  · intro h0
    rw [h0, enc_zero] at hs
    exact absurd hs.1 (by decide)
  · intro hk1
    obtain ⟨d2, hd2, hdo2, hde2⟩ := init_table_entry (k + 1) hk1
    have hs2 := table_enc_shape.1 (k + 1) hk1
    have hm := table_enc_shape.2 k (by unfold stages at *; omega)
    rw [← hde, ← hde2] at hm
    rw [← hde2] at hs2
    refine ⟨d2, hd2, ?_⟩
    rw [hval, val_of_enc_lt d2 hdo2 (by omega)]
    exact hm

theorem init_table_shape_witness :
    73 < stages ∧
    ∃ d, init_table[73]? = some d ∧ valid d ∧ sign_cell d = 0 ∧ d ≠ mp_zero ∧ 0 < val d ∧
      ∃ d2, init_table[73 + 1]? = some d2 ∧ val d2 ≤ val d :=
  ⟨by decide, (init_table_shape 73 (by decide)).2.imp
    (fun _ h => ⟨h.1, h.2.1, h.2.2.1, h.2.2.2.1, h.2.2.2.2.1, h.2.2.2.2.2 (by decide)⟩)⟩

theorem init_table_literals :
    ∀ k < 24, init_table[k]? = some ⟨0 :: literal_cells (table_literals.getD k "")⟩ := by
  decide

theorem init_table_halved :
    ∀ k < stages, 24 ≤ k →
      init_table[k]? = (init_table[k - 1]?).map (fun p => mp_shr 0 p 1) := by
  decide

/-- C14: table construction.  After `init_table`, every entry `k < 24` has sign
cell 0 and its cells 1 .. 23 are, digit for digit, the first 23 digits of the
`k`-th literal constant (the integer digit and the first 22 fractional
digits); every entry `k` in `24 .. 74` is `mp_shr` by one bit of the entry
before it (whatever `spilover` held on entry). -/
theorem init_table_construction (k : Nat) (hk : k < stages) :
    (k < 24 → ∃ d, init_table[k]? = some d ∧ sign_cell d = 0 ∧
        d.digits.drop 1 = literal_cells (table_literals.getD k "")) ∧
    (24 ≤ k → ∀ j : Int, ∃ p, init_table[k - 1]? = some p ∧
        init_table[k]? = some (mp_shr j p 1)) := by
  constructor
  · intro h
    exact ⟨_, init_table_literals k h, rfl, rfl⟩
  · intro h j
    have hh := init_table_halved k hk h
    obtain ⟨p, hp, _, _⟩ := init_table_entry (k - 1) (by omega)
    rw [hp] at hh
    exact ⟨p, hp, by rw [hh, mp_shr_junk_pos j p 1 (by decide)]; rfl⟩

theorem init_table_construction_witness :
    24 < stages ∧
    ∃ p, init_table[24 - 1]? = some p ∧ init_table[24]? = some (mp_shr 0 p 1) :=
  ⟨by decide, (init_table_construction 24 (by decide)).2 (by decide) 0⟩

/-! ## No overflow in the run of `main` -/

theorem sim_range_00 :
    ∀ n < stages + 1, sim_in_range (sim_loop table_enc (junk_at0 0 0) n (enc_state main_init)) := by
  decide

theorem sim_range_01 :
    ∀ n < stages + 1, sim_in_range (sim_loop table_enc (junk_at0 0 1) n (enc_state main_init)) := by
  decide

theorem sim_range_10 :
    ∀ n < stages + 1, sim_in_range (sim_loop table_enc (junk_at0 1 0) n (enc_state main_init)) := by
  decide

theorem sim_range_11 :
    ∀ n < stages + 1, sim_in_range (sim_loop table_enc (junk_at0 1 1) n (enc_state main_init)) := by
  decide

/-- A value with cells in `[0, 9]` and an encoding in `[0, 2)` or in `[-1, 0)`
modulo `10^24` is valid and its signed value lies in `[-1, 2)`. -/
theorem valid_in_range_of_enc (v : mp_num) (h : cells_ok v)
    (hr : enc v < 2 * 10 ^ 22 ∨ 10 ^ 24 - 10 ^ 22 ≤ enc v) :
    valid v ∧ in_range (val v) := by
  have hb := enc_bounds v h
  rcases hr with hr | hr
  · have hs := sign_cell_zero_of_enc_lt v h (by omega)
    refine ⟨⟨h, Or.inl hs⟩, ?_⟩
    rw [val_of_enc_lt v h (by omega)]
    exact ⟨by omega, hr⟩
  · have hs := sign_cell_nine_of_enc_ge v h (by omega)
    refine ⟨⟨h, Or.inr hs⟩, ?_⟩
    unfold val
    rw [if_pos hs]
    exact ⟨by omega, by omega⟩

theorem main_loop_range_of_sim (jf : Nat → Int × Int)
    (hr : ∀ n < stages + 1, sim_in_range (sim_loop table_enc jf n (enc_state main_init)))
    (n : Nat) (hn : n ≤ stages) :
    ∃ st, main_loop init_table jf n main_init = some st ∧
      (valid st.2 ∧ in_range (val st.2)) ∧
      (valid st.1.real ∧ in_range (val st.1.real)) ∧
      (valid st.1.imag ∧ in_range (val st.1.imag)) := by
  have hb : ∀ k < stages, (sim_loop table_enc jf k (enc_state main_init)).1 < 10 ^ 23 ∧
      (sim_loop table_enc jf k (enc_state main_init)).2.1 < 10 ^ 23 := by
    intro k hk
    have := hr k (by omega)
    exact ⟨by have := this.1; omega, by have := this.2.1; omega⟩
  obtain ⟨st, e, o1, o2, o3, es⟩ := main_loop_sim jf hb n hn
  have h := hr n (by omega)
  rw [← es] at h
  exact ⟨st, e, valid_in_range_of_enc _ o3 h.2.2,
    valid_in_range_of_enc _ o1 (Or.inl h.1), valid_in_range_of_enc _ o2 (Or.inl h.2.1)⟩

/-- C17: no overflow in the reference run.  In the run of `main` (angle
`0.5235987755982988730771...`, vector `(0.6072529350088812561694..., 0)`,
stages in increasing order), whatever the unassigned locals of `mp_shr` hold,
the state after `n` stages, for every `n` up to 75, has a residual angle, a
`real` part and an `imag` part that are valid values (cells in `[0, 9]`, sign
cell 0 or 9) whose signed value lies in `[-1, 2)`. -/
theorem main_loop_no_overflow (junk : Nat → Int × Int) (n : Nat) (hn : n ≤ stages) :
    ∃ c a, main_loop init_table junk n main_init = some (c, a) ∧
      (valid a ∧ in_range (val a)) ∧
      (valid c.real ∧ in_range (val c.real)) ∧
      (valid c.imag ∧ in_range (val c.imag)) := by
  rw [main_loop_junk init_table junk main_init n]
  have key : ∃ st, main_loop init_table
      (junk_at0 (junk_bit (junk 0).1) (junk_bit (junk 0).2)) n main_init = some st ∧
      (valid st.2 ∧ in_range (val st.2)) ∧
      (valid st.1.real ∧ in_range (val st.1.real)) ∧
      (valid st.1.imag ∧ in_range (val st.1.imag)) := by
    rcases junk_bit_cases (junk 0).1 with h1 | h1 <;>
      rcases junk_bit_cases (junk 0).2 with h2 | h2 <;> rw [h1, h2]
    · exact main_loop_range_of_sim _ sim_range_00 n hn
    · exact main_loop_range_of_sim _ sim_range_01 n hn
    · exact main_loop_range_of_sim _ sim_range_10 n hn
    · exact main_loop_range_of_sim _ sim_range_11 n hn
  obtain ⟨st, e, h⟩ := key
  exact ⟨st.1, st.2, e, h⟩

theorem main_loop_no_overflow_witness :
    40 ≤ stages ∧
    ∃ c a, main_loop init_table (junk_at0 1 1) 40 main_init = some (c, a) ∧
      (valid a ∧ in_range (val a)) ∧
      (valid c.real ∧ in_range (val c.real)) ∧
      (valid c.imag ∧ in_range (val c.imag)) :=
  ⟨by decide, main_loop_no_overflow (junk_at0 1 1) 40 (by decide)⟩

/-! ## The sign of loaded values -/

theorem char_eq_zero_of_toNat (c : Char) (h : c.toNat = 48) : c = '0' := by
  rw [← Char.ofNat_toNat c, h]

/-- The value the load rule describes is the zero value exactly when all its
digits are `0`. -/
theorem load_value_eq_zero_iff (text : List Char) :
    load_value text = mp_zero ↔ ∀ c ∈ load_ds text, c = '0' := by
  have hl := load_ds_length text
  have hd := load_ds_digits text
  constructor
  · intro h c hc
    have h2 : (load_value text).digits = List.replicate mp_digits 0 := by rw [h]; rfl
    have h3 := (List.eq_replicate_iff.mp h2).2 ((c.toNat : Int) - 48) (by
      simp only [load_value, List.mem_cons, List.mem_append, List.mem_map]
      exact Or.inr (Or.inl ⟨c, hc, rfl⟩))
    exact char_eq_zero_of_toNat c (by omega)
  · intro h
    have h2 : (load_value text).digits = List.replicate mp_digits 0 := by
      apply List.eq_replicate_iff.mpr
      refine ⟨(load_value_ok text).1.1, ?_⟩
      intro b hb
      simp only [load_value, List.mem_cons, List.mem_append, List.mem_map,
        List.mem_replicate] at hb
      rcases hb with rfl | ⟨c, hc, rfl⟩ | ⟨_, rfl⟩
      · rfl
      · rw [h c hc]; rfl
      · rfl
    cases hv : load_value text with
    | mk l =>
      rw [hv] at h2
      simp only at h2
      rw [h2]; rfl

/-- Negating a non-negative value: zero stays zero, every other value gets
sign cell 9. -/
theorem mp_neg_of_nonneg (m : mp_num) (h : cells_ok m) (hs : sign_cell m = 0) :
    (m = mp_zero → mp_neg m = mp_zero) ∧ (m ≠ mp_zero → sign_cell (mp_neg m) = 9) := by
  obtain ⟨n1, n2⟩ := mp_neg_spec m h
  have s1 := sign_cell_enc m h
  rw [hs] at s1
  constructor
  · intro h0
    apply enc_inj _ _ n1 zero_ok
    rw [n2, h0, enc_zero]; decide
  · intro hne
    have hne2 : enc m ≠ 0 := by
      intro h0
      exact hne (enc_inj m mp_zero h zero_ok (by rw [h0, enc_zero]))
    apply sign_cell_nine_of_enc_ge _ n1
    rw [n2]; omega

/-- C19: `mp_load` always produces a valid sign.  For every text the value
stored has sign cell 0 or 9, and it is 9 exactly when the text begins with `-`
and one of its first 23 digit characters is not `0`; so `"-0.0"` loads the
zero value. -/
theorem mp_load_sign (text : List Char) :
    (sign_cell (mp_load text).2 = 0 ∨ sign_cell (mp_load text).2 = 9) ∧
    (sign_cell (mp_load text).2 = 9 ↔
      text.head? = some '-' ∧ ∃ c ∈ load_ds text, c ≠ '0') ∧
    (mp_load "-0.0".toList).2 = mp_zero := by
  obtain ⟨ok, s0⟩ := load_value_ok text
  obtain ⟨z1, z2⟩ := mp_neg_of_nonneg _ ok s0
  have hz := load_value_eq_zero_iff text
  have hex : (∃ c ∈ load_ds text, c ≠ '0') ↔ load_value text ≠ mp_zero := by
    rw [Ne, hz]
    constructor
    · rintro ⟨c, hc, hne⟩ hall
      exact hne (hall c hc)
    · intro hn
      by_contra hcon
      apply hn
      intro c hc
      by_contra hne
      exact hcon ⟨c, hc, hne⟩
  rw [mp_load_spec]
  simp only
  refine ⟨?_, ?_, by decide⟩
  · split
    · by_cases hzz : load_value text = mp_zero
      · left; rw [z1 hzz]; rfl
      · right; exact z2 hzz
    · left; exact s0
  · split
    · rename_i hneg
      rw [hex]
      constructor
      · intro h9
        refine ⟨hneg, fun hzz => ?_⟩
        rw [z1 hzz] at h9
        exact absurd h9 (by decide)
      · intro h
        exact z2 h.2
    · rename_i hneg
      constructor
      · intro h9
        rw [s0] at h9
        exact absurd h9 (by decide)
      · intro h
        exact absurd h.1 hneg

/-! ## Loading and printing -/

theorem print_loop_from_three : ∀ (l : List Int) (i : Nat), 3 ≤ i →
    print_loop l i = l.map digit_char
  | [], _, _ => rfl
  | d :: ds, i, h => by
    have hi : ¬ i = 2 := by omega
    simp only [print_loop, hi, if_false, List.nil_append, List.map_cons]
    rw [print_loop_from_three ds (i + 1) (by omega)]

theorem print_loop_from_one (x y : Int) (l : List Int) :
    print_loop (x :: y :: l) 1 = digit_char x :: '.' :: digit_char y :: l.map digit_char := by
  simp only [print_loop, show ¬ (1 = 2) by decide, if_false, if_true, List.nil_append,
    List.cons_append]
  rw [print_loop_from_three l 3 (le_refl _)]

theorem digit_char_of_digit (c : Char) (h : 48 ≤ c.toNat ∧ c.toNat ≤ 57) :
    digit_char ((c.toNat : Int) - 48) = c := by
  have e : ((48 + ((c.toNat : Int) - 48)) % 256).toNat = c.toNat := by omega
  unfold digit_char
  rw [e, Char.ofNat_toNat]

theorem map_digit_char (l : List Char) (h : ∀ c ∈ l, 48 ≤ c.toNat ∧ c.toNat ≤ 57) :
    (l.map (fun c => (c.toNat : Int) - 48)).map digit_char = l := by
  induction l with
  | nil => rfl
  | cons c cs ih =>
    simp only [List.map_cons]
    rw [digit_char_of_digit c (h c (List.mem_cons_self _ _)),
      ih (fun x hx => h x (List.mem_cons_of_mem _ hx))]

/-- Negating twice gives the value back, for cells in `[0, 9]`. -/
theorem mp_neg_neg (v : mp_num) (hv : cells_ok v) : mp_neg (mp_neg v) = v := by
  obtain ⟨n1, n2⟩ := mp_neg_spec v hv
  obtain ⟨m1, m2⟩ := mp_neg_spec _ n1
  have hb := enc_bounds v hv
  apply enc_inj _ _ m1 hv
  rw [m2, n2]
  omega

/-- The digits `mp_load` takes from a text in the decimal text format. -/
theorem load_ds_format (neg : Bool) (d0 : Char) (fr : List Char)
    (hd0 : 48 ≤ d0.toNat ∧ d0.toNat ≤ 57) (hlen : fr.length = 22)
    (hfr : ∀ c ∈ fr, 48 ≤ c.toNat ∧ c.toNat ≤ 57) :
    load_ds ((if neg = true then ['-'] else []) ++ d0 :: '.' :: fr) = d0 :: fr := by
  have hfil : fr.filter (fun c => decide (48 ≤ c.toNat ∧ c.toNat ≤ 57)) = fr :=
    List.filter_eq_self.mpr (fun c hc => decide_eq_true (hfr c hc))
  have hcc : c_chars ((if neg = true then ['-'] else []) ++ d0 :: '.' :: fr)
      = (if neg = true then ['-'] else []) ++ d0 :: '.' :: fr := by
    apply List.takeWhile_eq_self_iff.mpr
    intro x hx
    apply decide_eq_true
    rcases List.mem_append.mp hx with h | h
    · cases neg with
      | true =>
        have : x = '-' := by simpa using h
        rw [this]; decide
      | false => simp at h
    · rcases List.mem_cons.mp h with rfl | h
      · omega
      · rcases List.mem_cons.mp h with rfl | h
        · decide
        · have := hfr x h
          omega
  have hd0' : decide (48 ≤ d0.toNat ∧ d0.toNat ≤ 57) = true := decide_eq_true hd0
  unfold load_ds
  rw [hcc, List.filter_append]
  have hpre : (if neg = true then ['-'] else []).filter
      (fun c => decide (48 ≤ c.toNat ∧ c.toNat ≤ 57)) = [] := by
    cases neg <;> rfl
  have hf2 : (d0 :: '.' :: fr).filter (fun c => decide (48 ≤ c.toNat ∧ c.toNat ≤ 57))
      = d0 :: fr := by
    have hdot : decide (48 ≤ ('.' : Char).toNat ∧ ('.' : Char).toNat ≤ 57) = false := by
      decide
    simp only [List.filter_cons, hd0', hdot, if_true, hfil]
    rfl
  rw [hpre, List.nil_append, hf2]
  exact List.take_of_length_le (by simp [hlen])

/-- C11: load/format round trip.  For every text in the decimal text format
(an optional leading `-`, one integer digit, `.`, then 22 fractional digits),
`mp_print` of the value `mp_load` stores writes the same 23 digits in the same
order with a single `.` after the first digit, preceded by `-` exactly when
the text begins with `-` and one of its digits is not `0`. -/
theorem load_print_round_trip (neg : Bool) (d0 : Char) (fr : List Char)
    (hd0 : 48 ≤ d0.toNat ∧ d0.toNat ≤ 57) (hlen : fr.length = 22)
    (hfr : ∀ c ∈ fr, 48 ≤ c.toNat ∧ c.toNat ≤ 57) :
    mp_print (mp_load ((if neg = true then ['-'] else []) ++ d0 :: '.' :: fr)).2
      = (if neg = true ∧ ∃ c ∈ d0 :: fr, c ≠ '0' then ['-'] else []) ++ d0 :: '.' :: fr := by
  have hds := load_ds_format neg d0 fr hd0 hlen hfr
  obtain ⟨ok, s0⟩ := load_value_ok ((if neg = true then ['-'] else []) ++ d0 :: '.' :: fr)
  obtain ⟨z1, z2⟩ := mp_neg_of_nonneg _ ok s0
  have hz := load_value_eq_zero_iff ((if neg = true then ['-'] else []) ++ d0 :: '.' :: fr)
  rw [hds] at hz
  have hm : (load_value ((if neg = true then ['-'] else []) ++ d0 :: '.' :: fr)).digits
      = 0 :: ((d0.toNat : Int) - 48) :: fr.map (fun c => (c.toNat : Int) - 48) := by
    simp [load_value, hds, hlen]
  have hprint : print_loop
      ((load_value ((if neg = true then ['-'] else []) ++ d0 :: '.' :: fr)).digits.drop 1) 1
      = d0 :: '.' :: fr := by
    rw [hm]
    cases fr with
    | nil => simp at hlen
    | cons y l =>
      have hy := hfr y (List.mem_cons_self _ _)
      have hl : ∀ c ∈ l, 48 ≤ c.toNat ∧ c.toNat ≤ 57 :=
        fun c hc => hfr c (List.mem_cons_of_mem _ hc)
      simp only [List.drop_succ_cons, List.drop_zero, List.map_cons]
      rw [print_loop_from_one, digit_char_of_digit d0 hd0, digit_char_of_digit y hy,
        map_digit_char l hl]
  have hpm : mp_print (load_value ((if neg = true then ['-'] else []) ++ d0 :: '.' :: fr))
      = d0 :: '.' :: fr := by
    unfold mp_print
    have h0 : (load_value ((if neg = true then ['-'] else []) ++ d0 :: '.' :: fr)).digits.getD
        0 0 = 0 := s0
    rw [h0, if_neg (by decide), hprint]
  rw [mp_load_spec]
  simp only
  cases neg with
  | false =>
    have hh : ¬ ((([] : List Char) ++ d0 :: '.' :: fr).head? = some '-') := by
      intro h
      have : d0 = '-' := by simpa using h
      rw [this] at hd0
      exact absurd hd0.1 (by decide)
    simp only [Bool.false_eq_true, if_false, false_and] at hh hpm ⊢
    rw [if_neg hh, hpm]
    rfl
  | true =>
    simp only [if_true, true_and] at z1 z2 hz hpm ok ⊢
    have hh : (['-'] ++ d0 :: '.' :: fr).head? = some '-' := rfl
    rw [if_pos hh]
    by_cases hex : ∃ c ∈ d0 :: fr, c ≠ '0'
    · rw [if_pos hex]
      have hne : load_value (['-'] ++ d0 :: '.' :: fr) ≠ mp_zero := by
        intro h0
        obtain ⟨c, hc, hcne⟩ := hex
        exact hcne (hz.mp h0 c hc)
      have h9 : (mp_neg (load_value (['-'] ++ d0 :: '.' :: fr))).digits.getD 0 0 = 9 := z2 hne
      unfold mp_print
      rw [h9, if_pos rfl, mp_neg_neg _ ok]
      simp only [if_true, true_and] at hprint
      rw [hprint]
      rfl
    · rw [if_neg hex]
      have h0 : load_value (['-'] ++ d0 :: '.' :: fr) = mp_zero := by
        apply hz.mpr
        intro c hc
        by_contra hne
        exact hex ⟨c, hc, hne⟩
      have hn := z1 h0
      rw [hn, ← h0, hpm]
      rfl

theorem load_print_round_trip_witness :
    (48 ≤ ('0' : Char).toNat ∧ ('0' : Char).toNat ≤ 57) ∧
    "5235987755982988730771".toList.length = 22 ∧
    (∀ c ∈ "5235987755982988730771".toList, 48 ≤ c.toNat ∧ c.toNat ≤ 57) ∧
    mp_print (mp_load ((if true = true then ['-'] else [])
        ++ '0' :: '.' :: "5235987755982988730771".toList)).2
      = (if true = true ∧ ∃ c ∈ '0' :: "5235987755982988730771".toList, c ≠ '0'
          then ['-'] else []) ++ '0' :: '.' :: "5235987755982988730771".toList :=
  ⟨by decide, by decide, by decide,
    load_print_round_trip true '0' "5235987755982988730771".toList
      (by decide) (by decide) (by decide)⟩

end CordicBcd
